import Mathlib

/-!
CreateBlastDB: the taxonomy table and the LCA finder.

A shallow embedding of `src/Taxonomy.hpp`, `src/Taxonomy.cpp` and
`src/Taxonomy.tpp` (class `LCA_Finder`) and of the functions of
`src/HelperFunctions.cpp` and `src/HelperFunctions.tpp` that they use, followed
by theorems about it.

Conventions of the embedding.

* C++ `int` identifiers are `Int`; the code performs no arithmetic on them.
* `std::map<int, TaxonNode>` is an association list; `find` returns the node
  stored under a key (the first pair with that key).
* Loops that the source does not bound (`TraceToRoot`, the upward walk of
  `GetLCA_ID`) take a `fuel : Nat`, the largest number of iterations allowed
  to each loop; `none` means the fuel ran out.
* A `std::list<int>::iterator` into `ancestors` is the suffix of `ancestors`
  that starts at the pointed element; `ancestors.end()` is the empty suffix.
* Reading through an iterator equal to `ancestors.end()` is undefined in C++.
  The embedding makes that read explicit: `pastEnd ancestors` is what such a
  read yields, `none` when the run is cut there (`strict`), `some s` when the
  read happens to produce the integer `s` (`sentinel s`).
* `std::string` is the list of its characters; positions are `Nat`, and
  `std::string::npos` is `none`.
* The file system is a parameter: a name is bound to the bytes of the file, or
  to nothing when the stream cannot be opened.
* A read of `fields[i]` past the size of the vector, and an `atoi` whose value
  does not fit an `int`, are undefined in C++: `TaxonNode.TaxonNode` is `none`
  and `LoadData` ends as `LoadEnd.undefined`.
-/

namespace Taxonomy

set_option linter.dupNamespace false

/-! Definitions -/

/-- The data structure of nodes.dmp (`struct TaxonNode`, Taxonomy.hpp). -/
structure TaxonNode where
  taxonID : Int
  parentID : Int
  rank : String
  emblCode : String
  divisionID : Int
  inheritedDivFlag : Bool
  geneticID : Int
  inheritedGCFlag : Bool
  mitochondrialGeneticCodeID : Int
  inheritedMGCFlag : Bool
  genbankHiddenFlag : Bool
  hiddenSubtreeRootFlag : Bool
  comments : String
  deriving DecidableEq, Repr

/-- The member `std::map<int, TaxonNode> treeHashTable` of `LCA_Finder`. -/
abbrev TreeHashTable := List (Int × TaxonNode)

/-- The lookup `treeHashTable.find(taxID)`; `none` stands for `treeHashTable.end()`. -/
def find (treeHashTable : TreeHashTable) (taxID : Int) : Option TaxonNode :=
  List.lookup taxID treeHashTable

/-- `LCA_Finder::TraceParent` (Taxonomy.cpp): the parent taxID of a given taxID,
and -1 when the table has no record under that key. -/
def TraceParent (treeHashTable : TreeHashTable) (taxID : Int) : Int :=
  match find treeHashTable taxID with
  | none => -1
  | some node => node.parentID

/-- `LCA_Finder::TraceToRoot` (Taxonomy.cpp). One unit of fuel is one pass through
the body of the `do ... while (node != -1 && node != 1)` loop: the node is
pushed, its parent is looked up, and the loop goes on with the parent unless the
parent is -1 or 1. -/
def TraceToRoot (treeHashTable : TreeHashTable) : Nat → Int → Option (List Int)
  | 0, _ => none
  | fuel + 1, node =>
    let next := TraceParent treeHashTable node
    if next ≠ -1 ∧ next ≠ 1 then
      (TraceToRoot treeHashTable fuel next).map (fun path => node :: path)
    else
      some [node]

/-- What a call of `GetLCA_ID` ends with. -/
inductive Outcome where
  /-- The call returns the integer `v`. -/
  | value (v : Int)
  /-- The call read through an iterator equal to `ancestors.end()` and the
  reading of the run stops there. -/
  | undefined
  deriving DecidableEq, Repr

/-- The strict reading of a past-the-end read: the run is cut. -/
def strict : List Int → Option Int :=
  fun _ => none

/-- A reading in which every past-the-end read yields the integer `s`. -/
def sentinel (s : Int) : List Int → Option Int :=
  fun _ => some s

/-- The read `*ancestorIter`, the iterator given as the suffix `it` of `ancestors`.
On a non-empty suffix it is the pointed element; on the empty suffix
(`ancestors.end()`) it is whatever `pastEnd` says. `ancestors.front()` is
`deref pastEnd ancestors ancestors`, the read of `*ancestors.begin()`. -/
def deref (pastEnd : List Int → Option Int) (ancestors it : List Int) : Option Int :=
  match it with
  | v :: _ => some v
  | [] => pastEnd ancestors

/-- The inner `for` loop of `GetLCA_ID` (Taxonomy.tpp, lines 33-37): advance
`ancestorIter` from the given position until it points at `taxID` or reaches
`ancestors.end()`. The result is the position where the loop leaves the iterator. -/
def scan (taxID : Int) : List Int → List Int
  | [] => []
  | a :: rest => if taxID = a then a :: rest else scan taxID rest

/-- How the `do ... while (taxID != -1)` loop of `GetLCA_ID` ends. -/
inductive WalkEnd where
  /-- The loop is left with these values of `taxID` and `ancestorIter`. -/
  | stopped (taxID : Int) (ancestorIter : List Int)
  /-- Line 38 read through `ancestors.end()` under the strict reading. -/
  | undefined
  deriving DecidableEq, Repr

/-- The `do ... while (taxID != -1)` loop of `GetLCA_ID` (Taxonomy.tpp, lines 32-40).
One unit of fuel is one pass through the body: scan the ancestors for `taxID`,
read `*ancestorIter` and leave the loop if it equals `taxID`, otherwise replace
`taxID` by its parent and go on unless that is -1. -/
def walk (treeHashTable : TreeHashTable) (pastEnd : List Int → Option Int)
    (ancestors : List Int) : Nat → Int → Option WalkEnd
  | 0, _ => none
  | fuel + 1, taxID =>
    let ancestorIter := scan taxID ancestors
    match deref pastEnd ancestors ancestorIter with
    | none => some WalkEnd.undefined
    | some v =>
      if taxID = v then some (WalkEnd.stopped taxID ancestorIter)
      else
        let up := TraceParent treeHashTable taxID
        if up ≠ -1 then walk treeHashTable pastEnd ancestors fuel up
        else some (WalkEnd.stopped up ancestorIter)

/-- The outer `for` loop of `GetLCA_ID` over the identifiers after the first
(Taxonomy.tpp, lines 29-47) and the final `return ancestors.front()`. For each
identifier: the upward walk, then line 42 reads `*ancestorIter` again; on equality
`ancestors.erase(ancestors.begin(), ancestorIter)` leaves the suffix at the
iterator, otherwise the function returns -1. -/
def foldTaxa (treeHashTable : TreeHashTable) (pastEnd : List Int → Option Int)
    (fuel : Nat) : List Int → List Int → Option Outcome
  | ancestors, [] =>
    match deref pastEnd ancestors ancestors with
    | none => some Outcome.undefined
    | some v => some (Outcome.value v)
  | ancestors, t :: rest =>
    match walk treeHashTable pastEnd ancestors fuel t with
    | none => none
    | some WalkEnd.undefined => some Outcome.undefined
    | some (WalkEnd.stopped taxID ancestorIter) =>
      match deref pastEnd ancestors ancestorIter with
      | none => some Outcome.undefined
      | some v =>
        if taxID = v then foldTaxa treeHashTable pastEnd fuel ancestorIter rest
        else some (Outcome.value (-1))

/-- `LCA_Finder::GetLCA_ID` (Taxonomy.tpp) on a container of `int`: -1 on the empty
container, the sole element on a one-element container, otherwise the ancestors
of the first identifier are traced and the remaining identifiers are folded in. -/
def GetLCA_ID (treeHashTable : TreeHashTable) (pastEnd : List Int → Option Int)
    (fuel : Nat) : List Int → Option Outcome
  | [] => some (Outcome.value (-1))
  | [x] => some (Outcome.value x)
  | x :: y :: rest =>
    match TraceToRoot treeHashTable fuel x with
    | none => none
    | some ancestors => foldTaxa treeHashTable pastEnd fuel ancestors (y :: rest)

/-- A record with the given taxon id and parent id and blank descriptive fields. -/
def mkNode (taxonID parentID : Int) : TaxonNode :=
  TaxonNode.mk taxonID parentID "" "" 0 false 0 false 0 false false false ""

/-- The example tree of the specification: root 1 (its own parent, as in
nodes.dmp), 1 -> 10, 20; 10 -> 100, 101; 20 -> 200. -/
def specTree : TreeHashTable :=
  [(1, mkNode 1 1), (10, mkNode 10 1), (20, mkNode 20 1),
   (100, mkNode 100 10), (101, mkNode 101 10), (200, mkNode 200 20)]

/-- A table whose parent relation is a two-node cycle away from the root. -/
def cycleTable : TreeHashTable :=
  [(5, mkNode 5 6), (6, mkNode 6 5)]

/-! Strings (`std::string` is the list of its characters) -/

/-- The tab character. -/
def tab : Char := Char.ofNat 9

/-- The newline character. -/
def newline : Char := Char.ofNat 10

/-- The double quote character. -/
def quote : Char := Char.ofNat 34

/-- Whether `text` begins with `pat`. -/
def startsWith : List Char → List Char → Bool
  | [], _ => true
  | _ :: _, [] => false
  | p :: ps, c :: cs => decide (p = c) && startsWith ps cs

/-- The number of characters of `text` before the first occurrence of `pat`;
`none` when `pat` does not occur. -/
def findFrom (pat : List Char) : List Char → Option Nat
  | [] => if startsWith pat [] then some 0 else none
  | c :: cs =>
    if startsWith pat (c :: cs) then some 0
    else (findFrom pat cs).map (fun k => k + 1)

/-- `std::string::find(pat, pos)`: the position of the first occurrence of `pat` at
or after `pos`; `none` stands for `std::string::npos`. -/
def strFind (s pat : List Char) (pos : Nat) : Option Nat :=
  if pos ≤ s.length then (findFrom pat (s.drop pos)).map (fun k => k + pos) else none

/-- `std::string::substr(pos, len)` for `pos` within the string: at most `len`
characters from position `pos`. -/
def substr (s : List Char) (pos len : Nat) : List Char :=
  (s.drop pos).take len

/-! HelperFunctions -/

/-- `RemoveExtension` (HelperFunctions.cpp): the text before the position given
by `file.find(".")`, or the whole text when there is no such position. -/
def RemoveExtension (file : List Char) : List Char :=
  match strFind file ['.'] 0 with
  | some found => substr file 0 found
  | none => file

/-- `ToCmdLineStr` (HelperFunctions.tpp) on the range given as a list; `modify`
is `none` for the NULL pointer, which the function replaces by the identity. The
`while` loop is the left fold over the elements after the first. -/
def ToCmdLineStr (files : List (List Char)) (sep : List Char)
    (modify : Option (List Char → List Char)) : List Char :=
  let modify := modify.getD (fun a => a)
  match files with
  | [] => []
  | x :: rest =>
    (rest.foldl (fun result y => result ++ (sep ++ modify y)) ([quote] ++ modify x))
      ++ [quote]

/-- What the file system holds under a name: `none` when the stream cannot be
opened (`ifs.fail()`), otherwise the bytes of the file. -/
abbrev FileSystem := List Char → Option (List Char)

/-- `ReadFile(const std::string &)` (HelperFunctions.cpp): throws
`std::runtime_error("Cannot read: " + fileName)` when the stream fails, otherwise
returns the bytes of the file. The read of an opened stream is taken to deliver
the whole file. -/
def ReadFile (fs : FileSystem) (fileName : List Char) : Except (List Char) (List Char) :=
  match fs fileName with
  | none => Except.error ("Cannot read: ".toList ++ fileName)
  | some bytes => Except.ok bytes

/-! The C library function `atoi` -/

/-- The C `isspace` in the "C" locale: space, and the characters 9 to 13. -/
def isspace (c : Char) : Bool :=
  c = ' ' || (9 ≤ c.toNat && c.toNat ≤ 13)

/-- The C `isdigit`: the characters 0 to 9. -/
def isdigit (c : Char) : Bool :=
  48 ≤ c.toNat && c.toNat ≤ 57

/-- The value of the longest run of decimal digits at the start of the text,
accumulated from `acc`. -/
def digitsValue : Nat → List Char → Nat
  | acc, [] => acc
  | acc, c :: cs =>
    if isdigit c then digitsValue (acc * 10 + (c.toNat - 48)) cs else acc

/-- The C `atoi`: skip leading white space, take an optional sign, then the
longest run of decimal digits (0 when there is none). The C standard leaves the
call undefined when the value does not fit an `int`: that is `none`. -/
def atoi (nptr : List Char) : Option Int :=
  let body := nptr.dropWhile isspace
  let v : Int :=
    if body.head? = some '-' then - (digitsValue 0 body.tail : Int)
    else if body.head? = some '+' then (digitsValue 0 body.tail : Int)
    else (digitsValue 0 body : Int)
  if -2147483648 ≤ v ∧ v ≤ 2147483647 then some v else none

/-! Loading nodes.dmp -/

/-- The text `fieldDelim` of `LoadData`: tab, bar, tab. -/
def fieldDelim : List Char := [tab, '|', tab]

/-- The text `rowDelim` of `LoadData`: tab, bar, newline. -/
def rowDelim : List Char := [tab, '|', newline]

/-- The C string that `c_str()` points to, as a `char*` reader sees it: the
characters before the first NUL. -/
def c_str (s : List Char) : String :=
  String.mk (s.takeWhile (fun c => c ≠ Char.ofNat 0))

/-- `TaxonNode::TaxonNode(std::vector<std::string> fields)` (Taxonomy.cpp). The
constructor reads `fields[0]` to `fields[12]` with the unchecked `operator[]`;
`none` stands for the undefined behaviour of such a read on a vector of fewer
than 13 elements and of an `atoi` whose value does not fit an `int`. A non-zero
`int` converts to the `bool` true. The `const char*` members are recorded as
the text they point to when the constructor runs. -/
def TaxonNode.TaxonNode (fields : List (List Char)) : Option TaxonNode :=
  if fields.length < 13 then none
  else
    let field := fun (i : Nat) => fields.getD i []
    (atoi (field 0)).bind fun taxonID =>
    (atoi (field 1)).bind fun parentID =>
    (atoi (field 4)).bind fun divisionID =>
    (atoi (field 5)).bind fun inheritedDivFlag =>
    (atoi (field 6)).bind fun geneticID =>
    (atoi (field 7)).bind fun inheritedGCFlag =>
    (atoi (field 8)).bind fun mitochondrialGeneticCodeID =>
    (atoi (field 9)).bind fun inheritedMGCFlag =>
    (atoi (field 10)).bind fun genbankHiddenFlag =>
    (atoi (field 11)).bind fun hiddenSubtreeRootFlag =>
    some (TaxonNode.mk taxonID parentID (c_str (field 2)) (c_str (field 3)) divisionID
      (decide (inheritedDivFlag ≠ 0)) geneticID (decide (inheritedGCFlag ≠ 0))
      mitochondrialGeneticCodeID (decide (inheritedMGCFlag ≠ 0))
      (decide (genbankHiddenFlag ≠ 0)) (decide (hiddenSubtreeRootFlag ≠ 0))
      (c_str (field 12)))

/-- `treeHashTable.insert(std::pair<int, TaxonNode>(taxonID, node))`: a
`std::map` keeps the element it already has under the key. -/
def insert (treeHashTable : TreeHashTable) (taxonID : Int) (node : TaxonNode) :
    TreeHashTable :=
  match find treeHashTable taxonID with
  | some _ => treeHashTable
  | none => treeHashTable ++ [(taxonID, node)]

/-- The inner `while` loop of `LoadData` (Taxonomy.cpp, lines 84-87) and the
`push_back` of line 88 that follows it: the fields of `row` from position
`fieldLast` on, appended to `fields`. One unit of fuel is one test of the loop
condition. -/
def splitFields (row : List Char) : Nat → Nat → List (List Char) → Option (List (List Char))
  | 0, _, _ => none
  | fuel + 1, fieldLast, fields =>
    match strFind row fieldDelim fieldLast with
    | some fieldNext =>
      splitFields row fuel (fieldNext + fieldDelim.length)
        (fields ++ [substr row fieldLast (fieldNext - fieldLast)])
    | none => some (fields ++ [row.drop fieldLast])

/-- How a call of `LoadData` ends, with the member `treeHashTable` it leaves. -/
inductive LoadEnd where
  /-- The call returns. -/
  | returned (treeHashTable : TreeHashTable)
  /-- The call leaves by the exception `std::runtime_error(what)`. -/
  | threw (what : List Char) (treeHashTable : TreeHashTable)
  /-- The call read a field that the record does not have, or converted a
  number that does not fit an `int`. -/
  | undefined
  deriving DecidableEq, Repr

/-- The member `treeHashTable` after the call, when the call is defined. -/
def LoadEnd.table : LoadEnd → Option TreeHashTable
  | LoadEnd.returned t => some t
  | LoadEnd.threw _ t => some t
  | LoadEnd.undefined => none

/-- The outer `while` loop of `LoadData` (Taxonomy.cpp, lines 80-95) from the
position `rowLast`. One unit of fuel is one test of the loop condition. -/
def loadRows (fileContents : List Char) :
    Nat → Nat → TreeHashTable → Option LoadEnd
  | 0, _, _ => none
  | fuel + 1, rowLast, treeHashTable =>
    match strFind fileContents rowDelim rowLast with
    | none => some (LoadEnd.returned treeHashTable)
    | some rowNext =>
      let row := substr fileContents rowLast (rowNext - rowLast)
      match splitFields row (row.length + 1) 0 [] with
      | none => none
      | some fields =>
        match fields[0]? >>= atoi, TaxonNode.TaxonNode fields with
        | some taxonID, some node =>
          loadRows fileContents fuel (rowNext + rowDelim.length)
            (insert treeHashTable taxonID node)
        | _, _ => some LoadEnd.undefined

/-- `LCA_Finder::LoadData(std::string &nodesDumpFile)` (Taxonomy.cpp): read the
file, then load its rows into the table the object already has. Each pass of
either loop moves its position forward, so the length of the text plus one bounds
the passes. -/
def LoadData (fs : FileSystem) (nodesDumpFile : List Char)
    (treeHashTable : TreeHashTable) : Option LoadEnd :=
  match ReadFile fs nodesDumpFile with
  | Except.error what => some (LoadEnd.threw what treeHashTable)
  | Except.ok fileContents =>
    loadRows fileContents (fileContents.length + 1) 0 treeHashTable

/-- `LCA_Finder::LoadData(std::map<int, TaxonNode> &TreeHashTable)`:
the assignment `treeHashTable = TreeHashTable`. -/
def LoadDataTable (_treeHashTable replacement : TreeHashTable) : TreeHashTable :=
  replacement

/-! Well-formed dumps -/

/-- The text of a record: its fields with `fieldDelim` between them. -/
def renderFields : List (List Char) → List Char
  | [] => []
  | [f] => f
  | f :: g :: rest => f ++ (fieldDelim ++ renderFields (g :: rest))

/-- The text of a dump: its records, each followed by `rowDelim`. -/
def renderDump : List (List (List Char)) → List Char
  | [] => []
  | r :: rs => renderFields r ++ (rowDelim ++ renderDump rs)

/-- The number that a text of decimal digits denotes. -/
def decimalValue (s : List Char) : Nat :=
  s.foldl (fun acc c => acc * 10 + (c.toNat - 48)) 0

/-- A non-empty text of decimal digits whose value fits an `int`. -/
def isDecimal (s : List Char) : Prop :=
  s ≠ [] ∧ (∀ c ∈ s, isdigit c = true) ∧ decimalValue s ≤ 2147483647

/-- The taxon id of a record: the value of its first field. -/
def recordKey (r : List (List Char)) : Int :=
  (decimalValue (r.getD 0 []) : Int)

/-- The parent id of a record: the value of its second field. -/
def recordParent (r : List (List Char)) : Int :=
  (decimalValue (r.getD 1 []) : Int)

/-- A well-formed record of nodes.dmp: 13 fields, none of which holds a tab or
a newline (so that the delimiters occur only between fields and after records),
the taxon id and the parent id decimal integers, and the other numeric fields
convertible by `atoi`. -/
def wellFormedRecord (r : List (List Char)) : Prop :=
  r.length = 13 ∧ (∀ f ∈ r, tab ∉ f ∧ newline ∉ f) ∧
  isDecimal (r.getD 0 []) ∧ isDecimal (r.getD 1 []) ∧
  (∀ i ∈ [4, 5, 6, 7, 8, 9, 10, 11], (atoi (r.getD i [])).isSome = true)

instance decidableWellFormedRecord : DecidablePred wellFormedRecord :=
  fun r => by unfold wellFormedRecord isDecimal; infer_instance

/-- A record of nodes.dmp that `LoadData` can build: 13 fields, none of which
holds a tab or a newline, and the numeric fields, whatever their text, convertible
by `atoi` to a value that fits an `int`. -/
def loadableRecord (r : List (List Char)) : Prop :=
  r.length = 13 ∧ (∀ f ∈ r, tab ∉ f ∧ newline ∉ f) ∧
  (∀ i ∈ [0, 1, 4, 5, 6, 7, 8, 9, 10, 11], (atoi (r.getD i [])).isSome = true)

instance decidableLoadableRecord : DecidablePred loadableRecord :=
  fun r => by unfold loadableRecord; infer_instance

/-- The first record of a dump with the given taxon id. -/
def firstRecord (rows : List (List (List Char))) (k : Int) : Option (List (List Char)) :=
  rows.find? (fun r => decide (recordKey r = k))

/-- The 13 fields of a record of nodes.dmp with the given taxon id and parent
id texts. -/
def recordFields (taxonID parentID : List Char) : List (List Char) :=
  [taxonID, parentID, "no rank".toList, [], "8".toList, "0".toList, "1".toList,
   "0".toList, "0".toList, "0".toList, "0".toList, "0".toList, []]

/-- A file system with one file. -/
def oneFile (name bytes : List Char) : FileSystem :=
  fun n => if n = name then some bytes else none

/-- The member `treeHashTable` after a call of `LoadData`, when the call ends
and is defined. -/
def tableAfter (fs : FileSystem) (nodesDumpFile : List Char)
    (treeHashTable : TreeHashTable) : Option TreeHashTable :=
  (LoadData fs nodesDumpFile treeHashTable).bind LoadEnd.table

/-- A file system with two dumps: "a" holds the records 5 (parent 6) and 8
(parent 9), "b" holds the record 5 (parent 7). -/
def twoDumps : FileSystem :=
  fun n =>
    if n = "a".toList then
      some (renderDump [recordFields "5".toList "6".toList, recordFields "8".toList "9".toList])
    else if n = "b".toList then some (renderDump [recordFields "5".toList "7".toList])
    else none

/-! The loop of `GetLCA_ID`, pass by pass -/

/-- How one pass of the `for` loop of `GetLCA_ID` over the identifiers ends. -/
inductive StepEnd where
  /-- The pass ends with `ancestors.erase(...)` and leaves this ancestor list. -/
  | next (ancestors : List Int)
  /-- The pass leaves the function by `return v`. -/
  | returned (v : Int)
  /-- The pass read through `ancestors.end()` under the strict reading. -/
  | undefined
  deriving DecidableEq, Repr

/-- One pass of the `for` loop of `GetLCA_ID` (Taxonomy.tpp, lines 30-46) for
the identifier t: the upward walk, then the test of line 42 with the erase or
the `return -1`. -/
def forBody (treeHashTable : TreeHashTable) (pastEnd : List Int → Option Int)
    (fuel : Nat) (ancestors : List Int) (t : Int) : Option StepEnd :=
  match walk treeHashTable pastEnd ancestors fuel t with
  | none => none
  | some WalkEnd.undefined => some StepEnd.undefined
  | some (WalkEnd.stopped taxID ancestorIter) =>
    match deref pastEnd ancestors ancestorIter with
    | none => some StepEnd.undefined
    | some v =>
      if taxID = v then some (StepEnd.next ancestorIter)
      else some (StepEnd.returned (-1))

/-- The ancestor list after the passes of the loop for the given identifiers,
when every one of these passes ends with the erase. -/
def frontierAfter (treeHashTable : TreeHashTable) (pastEnd : List Int → Option Int)
    (fuel : Nat) : List Int → List Int → Option (List Int)
  | ancestors, [] => some ancestors
  | ancestors, t :: rest =>
    match forBody treeHashTable pastEnd fuel ancestors t with
    | some (StepEnd.next ancestors2) =>
      frontierAfter treeHashTable pastEnd fuel ancestors2 rest
    | _ => none

/-! Unfolding lemmas and fuel -/

theorem TraceToRoot_zero (tbl : TreeHashTable) (t : Int) : TraceToRoot tbl 0 t = none := rfl

theorem TraceToRoot_succ (tbl : TreeHashTable) (fuel : Nat) (t : Int) :
    TraceToRoot tbl (fuel + 1) t =
      if TraceParent tbl t ≠ -1 ∧ TraceParent tbl t ≠ 1 then
        (TraceToRoot tbl fuel (TraceParent tbl t)).map (fun path => t :: path)
      else some [t] := rfl

theorem walk_zero (tbl : TreeHashTable) (pastEnd : List Int → Option Int)
    (anc : List Int) (t : Int) : walk tbl pastEnd anc 0 t = none := rfl

theorem walk_succ (tbl : TreeHashTable) (pastEnd : List Int → Option Int)
    (anc : List Int) (fuel : Nat) (t : Int) :
    walk tbl pastEnd anc (fuel + 1) t =
      match deref pastEnd anc (scan t anc) with
      | none => some WalkEnd.undefined
      | some v =>
        if t = v then some (WalkEnd.stopped t (scan t anc))
        else
          if TraceParent tbl t ≠ -1 then walk tbl pastEnd anc fuel (TraceParent tbl t)
          else some (WalkEnd.stopped (TraceParent tbl t) (scan t anc)) := rfl

/-- More fuel does not change a trace that has returned. -/
theorem TraceToRoot_mono (tbl : TreeHashTable) :
    ∀ (f f2 : Nat) (t : Int) (p : List Int), f ≤ f2 →
      TraceToRoot tbl f t = some p → TraceToRoot tbl f2 t = some p := by
  intro f
  induction f with
  | zero => intro f2 t p _ h; simp [TraceToRoot_zero] at h
  | succ f ih =>
    intro f2 t p hle h
    obtain ⟨g, rfl⟩ : ∃ g, f2 = g + 1 := ⟨f2 - 1, by omega⟩
    rw [TraceToRoot_succ] at h ⊢
    split at h
    · rename_i hc
      rw [if_pos hc]
      rw [Option.map_eq_some'] at h
      obtain ⟨q, hq, rfl⟩ := h
      rw [ih g _ q (by omega) hq]
      rfl
    · rename_i hc
      rw [if_neg hc]
      exact h

/-- More fuel does not change an upward walk that has ended. -/
theorem walk_mono (tbl : TreeHashTable) (pastEnd : List Int → Option Int) (anc : List Int) :
    ∀ (f f2 : Nat) (t : Int) (r : WalkEnd), f ≤ f2 →
      walk tbl pastEnd anc f t = some r → walk tbl pastEnd anc f2 t = some r := by
  intro f
  induction f with
  | zero => intro f2 t r _ h; simp [walk_zero] at h
  | succ f ih =>
    intro f2 t r hle h
    obtain ⟨g, rfl⟩ : ∃ g, f2 = g + 1 := ⟨f2 - 1, by omega⟩
    rw [walk_succ] at h ⊢
    cases hd : deref pastEnd anc (scan t anc) with
    | none => rw [hd] at h; exact h
    | some v =>
      rw [hd] at h
      simp only at h ⊢
      by_cases hv : t = v
      · rw [if_pos hv] at h ⊢; exact h
      · rw [if_neg hv] at h ⊢
        by_cases hp : TraceParent tbl t ≠ -1
        · rw [if_pos hp] at h ⊢
          exact ih g _ r (by omega) h
        · rw [if_neg hp] at h ⊢; exact h

/-- More fuel does not change the outcome of the loop over the identifiers. -/
theorem foldTaxa_mono (tbl : TreeHashTable) (pastEnd : List Int → Option Int)
    (f f2 : Nat) (hle : f ≤ f2) :
    ∀ (taxIDs anc : List Int) (r : Outcome),
      foldTaxa tbl pastEnd f anc taxIDs = some r →
      foldTaxa tbl pastEnd f2 anc taxIDs = some r := by
  intro taxIDs
  induction taxIDs with
  | nil => intro anc r h; simpa [foldTaxa] using h
  | cons t rest ih =>
    intro anc r h
    rw [foldTaxa] at h ⊢
    cases hw : walk tbl pastEnd anc f t with
    | none => rw [hw] at h; simp at h
    | some w =>
      rw [hw] at h
      rw [walk_mono tbl pastEnd anc f f2 t w hle hw]
      cases w with
      | undefined => exact h
      | stopped taxID it =>
        simp only at h ⊢
        cases hd : deref pastEnd anc it with
        | none => rw [hd] at h; exact h
        | some v =>
          rw [hd] at h
          simp only at h ⊢
          by_cases hv : taxID = v
          · rw [if_pos hv] at h ⊢; exact ih it r h
          · rw [if_neg hv] at h ⊢; exact h

/-- More fuel does not change the outcome of `GetLCA_ID`. -/
theorem GetLCA_ID_mono (tbl : TreeHashTable) (pastEnd : List Int → Option Int)
    (f f2 : Nat) (hle : f ≤ f2) (taxIDs : List Int) (r : Outcome)
    (h : GetLCA_ID tbl pastEnd f taxIDs = some r) :
    GetLCA_ID tbl pastEnd f2 taxIDs = some r := by
  match taxIDs, h with
  | [], h => simpa [GetLCA_ID] using h
  | [x], h => simpa [GetLCA_ID] using h
  | x :: y :: rest, h =>
    rw [GetLCA_ID] at h ⊢
    cases ht : TraceToRoot tbl f x with
    | none => rw [ht] at h; simp at h
    | some anc =>
      rw [ht] at h
      rw [TraceToRoot_mono tbl f f2 x anc hle ht]
      exact foldTaxa_mono tbl pastEnd f f2 hle _ anc r h

/-- Two runs of `GetLCA_ID` that both end, end alike, whatever their fuel. -/
theorem GetLCA_ID_det (tbl : TreeHashTable) (pastEnd : List Int → Option Int)
    (f f2 : Nat) (taxIDs : List Int) (r r2 : Outcome)
    (h : GetLCA_ID tbl pastEnd f taxIDs = some r)
    (h2 : GetLCA_ID tbl pastEnd f2 taxIDs = some r2) : r = r2 := by
  rcases Nat.le_total f f2 with hle | hle
  · have := GetLCA_ID_mono tbl pastEnd f f2 hle taxIDs r h
    rw [h2] at this
    exact (Option.some.inj this).symm
  · have := GetLCA_ID_mono tbl pastEnd f2 f hle taxIDs r2 h2
    rw [h] at this
    exact Option.some.inj this

/-! The scan and the trace -/

theorem scan_head (x : Int) (q : List Int) : scan x (x :: q) = x :: q := by
  simp [scan]

theorem scan_of_not_mem (x : Int) : ∀ (l : List Int), x ∉ l → scan x l = [] := by
  intro l
  induction l with
  | nil => intro _; rfl
  | cons a rest ih =>
    intro h
    have ha : x ≠ a := fun e => h (e ▸ List.mem_cons_self _ _)
    have hr : x ∉ rest := fun m => h (List.mem_cons_of_mem _ m)
    simp [scan, ha, ih hr]

/-- A trace that has returned starts with the identifier it was asked for. -/
theorem TraceToRoot_head (tbl : TreeHashTable) (f : Nat) (t : Int) (p : List Int)
    (h : TraceToRoot tbl f t = some p) : ∃ q, p = t :: q := by
  cases f with
  | zero => simp [TraceToRoot_zero] at h
  | succ f =>
    rw [TraceToRoot_succ] at h
    split at h
    · rw [Option.map_eq_some'] at h
      obtain ⟨q, _, rfl⟩ := h
      exact ⟨q, rfl⟩
    · exact ⟨[], (Option.some.inj h).symm⟩

/-- Scanning a trace for one of its members stops at that member, and what is
left of the trace from there on is the trace of that member. -/
theorem TraceToRoot_scan (tbl : TreeHashTable) :
    ∀ (f : Nat) (a b : Int) (p : List Int), TraceToRoot tbl f a = some p → b ∈ p →
      ∃ q, scan b p = b :: q ∧ TraceToRoot tbl f b = some (b :: q) := by
  intro f
  induction f with
  | zero => intro a b p h _; simp [TraceToRoot_zero] at h
  | succ f ih =>
    intro a b p h hb
    by_cases hba : b = a
    · subst hba
      obtain ⟨q, rfl⟩ := TraceToRoot_head tbl _ _ _ h
      exact ⟨q, scan_head _ _, h⟩
    · have h0 := h
      rw [TraceToRoot_succ] at h
      split at h
      · rw [Option.map_eq_some'] at h
        obtain ⟨p2, hp2, rfl⟩ := h
        have hb2 : b ∈ p2 := by
          rcases List.mem_cons.mp hb with e | m
          · exact absurd e hba
          · exact m
        obtain ⟨q, hs, ht⟩ := ih _ b p2 hp2 hb2
        refine ⟨q, ?_, TraceToRoot_mono tbl f (f + 1) b _ (Nat.le_succ f) ht⟩
        simp [scan, hba, hs]
      · have hp : p = [a] := (Option.some.inj h).symm
        subst hp
        exact absurd (List.mem_singleton.mp hb) hba

/-- When the identifier is the head of the ancestors, the walk stops at once
with the iterator at the head, and no past-the-end read takes place. -/
theorem walk_head (tbl : TreeHashTable) (pastEnd : List Int → Option Int)
    (f : Nat) (b : Int) (anc q : List Int) (hs : scan b anc = b :: q) :
    walk tbl pastEnd anc (f + 1) b = some (WalkEnd.stopped b (b :: q)) := by
  rw [walk_succ, hs]
  simp [deref]

/-- Folding in identifiers that each lie on the trace of the one before keeps
the ancestors equal to the trace of the last identifier folded in. -/
theorem foldTaxa_chain (tbl : TreeHashTable) (pastEnd : List Int → Option Int) (f : Nat) :
    ∀ (rest : List Int) (a : Int) (q : List Int),
      TraceToRoot tbl f a = some (a :: q) →
      List.Chain (fun x y => ∃ p, TraceToRoot tbl f x = some p ∧ y ∈ p) a rest →
      foldTaxa tbl pastEnd f (a :: q) rest =
        some (Outcome.value ((a :: rest).getLast (List.cons_ne_nil a rest))) := by
  intro rest
  induction rest with
  | nil => intro a q _ _; simp [foldTaxa, deref]
  | cons b rest ih =>
    intro a q ha hc
    rw [List.chain_cons] at hc
    obtain ⟨⟨p, hp, hb⟩, hc2⟩ := hc
    rw [ha] at hp
    have hp2 : p = a :: q := (Option.some.inj hp).symm
    subst hp2
    obtain ⟨q2, hs, hb2⟩ := TraceToRoot_scan tbl f a b _ ha hb
    obtain ⟨g, rfl⟩ : ∃ g, f = g + 1 := by
      cases f with
      | zero => simp [TraceToRoot_zero] at ha
      | succ g => exact ⟨g, rfl⟩
    rw [foldTaxa, walk_head tbl pastEnd g b _ q2 hs]
    simp only [deref, if_true]
    rw [ih b q2 hb2 hc2]
    simp [List.getLast_cons]

/-! Runs that never end -/

/-- In the example tree the walk from the root never ends when the root is not
among the ancestors: the root is its own parent, so `taxID` never becomes -1. -/
theorem walk_specTree_root (anc : List Int) (h : (1 : Int) ∉ anc) :
    ∀ fuel, walk specTree (sentinel 0) anc fuel 1 = none := by
  intro fuel
  induction fuel with
  | zero => rfl
  | succ f ih =>
    rw [walk_succ, scan_of_not_mem 1 anc h]
    have hp : TraceParent specTree 1 = 1 := by decide
    simp [deref, sentinel, hp, ih]

/-- In the cycle table the traces of 5 and of 6 never end. -/
theorem TraceToRoot_cycleTable :
    ∀ fuel, TraceToRoot cycleTable fuel 5 = none ∧ TraceToRoot cycleTable fuel 6 = none := by
  intro fuel
  induction fuel with
  | zero => exact ⟨rfl, rfl⟩
  | succ f ih =>
    have h5 : TraceParent cycleTable 5 = 6 := by decide
    have h6 : TraceParent cycleTable 6 = 5 := by decide
    constructor
    · rw [TraceToRoot_succ, h5]; simp [ih.2]
    · rw [TraceToRoot_succ, h6]; simp [ih.1]

/-! Lists that run along one trace -/

/-- The relation "y lies on the trace of x" (the trace of x returns and y is in
it) is transitive. -/
theorem onTrace_trans (tbl : TreeHashTable) (f : Nat) (a b c : Int)
    (hab : ∃ p, TraceToRoot tbl f a = some p ∧ b ∈ p)
    (hbc : ∃ p, TraceToRoot tbl f b = some p ∧ c ∈ p) :
    ∃ p, TraceToRoot tbl f a = some p ∧ c ∈ p := by
  obtain ⟨p, hp, hb⟩ := hab
  obtain ⟨p2, hp2, hc⟩ := hbc
  obtain ⟨q, hs, hq⟩ := TraceToRoot_scan tbl f a b p hp hb
  rw [hq] at hp2
  have e : p2 = b :: q := (Option.some.inj hp2).symm
  subst e
  refine ⟨p, hp, ?_⟩
  have hsuf : ∀ (l : List Int), scan b l <:+ l := by
    intro l
    induction l with
    | nil => exact List.suffix_refl _
    | cons x rest ih =>
      by_cases hx : b = x
      · simp [scan, hx]
      · simp only [scan, hx, if_false]
        exact List.IsSuffix.trans ih (List.suffix_cons x rest)
  have := hsuf p
  rw [hs] at this
  exact this.subset hc

/-- Along a list in which every identifier lies on the trace of the one before,
the last identifier lies on the trace of every other one. -/
theorem chain_last_onTrace (tbl : TreeHashTable) (f : Nat) :
    ∀ (rest : List Int) (a : Int),
      List.Chain (fun x y => ∃ p, TraceToRoot tbl f x = some p ∧ y ∈ p) a rest →
      ∀ y ∈ a :: rest, y = (a :: rest).getLast (List.cons_ne_nil a rest) ∨
        ∃ p, TraceToRoot tbl f y = some p ∧
          (a :: rest).getLast (List.cons_ne_nil a rest) ∈ p := by
  intro rest
  induction rest with
  | nil =>
    intro a _ y hy
    left
    simpa using hy
  | cons b rest ih =>
    intro a hc y hy
    rw [List.chain_cons] at hc
    obtain ⟨hab, hc2⟩ := hc
    have hl : (a :: b :: rest).getLast (List.cons_ne_nil a (b :: rest)) =
        (b :: rest).getLast (List.cons_ne_nil b rest) := by
      simp [List.getLast_cons]
    rw [hl]
    rcases List.mem_cons.mp hy with e | m
    · subst e
      right
      rcases ih b hc2 b (List.mem_cons_self _ _) with e2 | h2
      · rw [← e2]; exact hab
      · exact onTrace_trans tbl f y b _ hab h2
    · exact ih b hc2 y m

/-- Folding in further copies of the head of the ancestors changes nothing. -/
theorem foldTaxa_replicate (tbl : TreeHashTable) (pastEnd : List Int → Option Int)
    (g : Nat) (x : Int) (q : List Int) :
    ∀ k, foldTaxa tbl pastEnd (g + 1) (x :: q) (List.replicate k x) =
      some (Outcome.value x) := by
  intro k
  induction k with
  | zero => simp [foldTaxa, deref]
  | succ k ih =>
    rw [List.replicate_succ, foldTaxa, walk_head tbl pastEnd g x _ q (scan_head x q)]
    simp only [deref, if_true]
    exact ih

/-! The claims -/

/-- C1, the code at the failing input. In the example tree the trace of 100 is
[100, 10], without the root. On [100, 200] (lowest common ancestor 1) and on
[100, 101] (lowest common ancestor 10) the scan for the second identifier fails
and line 38 reads through `ancestors.end()`; and when that read yields a value
that matches nothing, the walk from 200 reaches the root, which is not among the
ancestors and is its own parent, so the call on [100, 200] never returns. -/
theorem GetLCA_ID_specTree_siblings :
    TraceToRoot specTree 2 100 = some [100, 10] ∧
    (∀ fuel, GetLCA_ID specTree strict (fuel + 2) [100, 200] = some Outcome.undefined) ∧
    (∀ fuel, GetLCA_ID specTree strict (fuel + 2) [100, 101] = some Outcome.undefined) ∧
    (∀ fuel, GetLCA_ID specTree (sentinel 0) fuel [100, 200] = none) := by
  refine ⟨by decide, ?_, ?_, ?_⟩
  · intro fuel
    exact GetLCA_ID_mono specTree strict 2 (fuel + 2) (by omega) _ _ (by decide)
  · intro fuel
    exact GetLCA_ID_mono specTree strict 2 (fuel + 2) (by omega) _ _ (by decide)
  · intro fuel
    match fuel with
    | 0 => rfl
    | 1 => rfl
    | f + 2 =>
      have ht : TraceToRoot specTree (f + 2) 100 = some [100, 10] :=
        TraceToRoot_mono specTree 2 (f + 2) 100 _ (by omega) (by decide)
      have h200 : TraceParent specTree 200 = 20 := by decide
      have h20 : TraceParent specTree 20 = 1 := by decide
      have hroot := walk_specTree_root [100, 10] (by decide) f
      have hw : walk specTree (sentinel 0) [100, 10] (f + 2) 200 = none := by
        rw [walk_succ, walk_succ]
        simp [scan, deref, sentinel, h200, h20, hroot]
      rw [GetLCA_ID, ht]
      simp only [foldTaxa, hw]

/-- C2, the code at the failing input. In the example tree 999 has no record. On
[100, 999] the scan for 999 fails and line 38 reads through `ancestors.end()`;
the `return -1` of line 45 is reached only when that read yields a value that
matches nothing. On [999, 100], under such a read, the walk from 100 reaches the
root, which is its own parent, and the call never returns. -/
theorem GetLCA_ID_specTree_absent :
    find specTree 999 = none ∧
    (∀ fuel, GetLCA_ID specTree strict (fuel + 2) [100, 999] = some Outcome.undefined) ∧
    (∀ fuel, GetLCA_ID specTree (sentinel 0) (fuel + 2) [100, 999] =
      some (Outcome.value (-1))) ∧
    (∀ fuel, GetLCA_ID specTree (sentinel 0) fuel [999, 100] = none) := by
  refine ⟨by decide, ?_, ?_, ?_⟩
  · intro fuel
    exact GetLCA_ID_mono specTree strict 2 (fuel + 2) (by omega) _ _ (by decide)
  · intro fuel
    exact GetLCA_ID_mono specTree (sentinel 0) 2 (fuel + 2) (by omega) _ _ (by decide)
  · intro fuel
    match fuel with
    | 0 => rfl
    | 1 => rfl
    | f + 2 =>
      have ht : TraceToRoot specTree (f + 2) 999 = some [999] :=
        TraceToRoot_mono specTree 1 (f + 2) 999 _ (by omega) (by decide)
      have h100 : TraceParent specTree 100 = 10 := by decide
      have h10 : TraceParent specTree 10 = 1 := by decide
      have hroot := walk_specTree_root [999] (by decide) f
      have hw : walk specTree (sentinel 0) [999] (f + 2) 100 = none := by
        rw [walk_succ, walk_succ]
        simp [scan, deref, sentinel, h100, h10, hroot]
      rw [GetLCA_ID, ht]
      simp only [foldTaxa, hw]

/-- C3, the code at the failing input. The lists [100, 10] and [10, 100] are
permutations of each other: the first returns 10 with every read in bounds, the
second reads through `ancestors.end()` at line 38. The lists [100, 999] and
[999, 100] are permutations of each other: when a past-the-end read yields a
value that matches nothing, the first returns -1 and the second never returns. -/
theorem GetLCA_ID_order_specTree :
    List.Perm [(100 : Int), 10] [10, 100] ∧
    (∀ fuel, GetLCA_ID specTree strict (fuel + 2) [100, 10] = some (Outcome.value 10)) ∧
    (∀ fuel, GetLCA_ID specTree strict (fuel + 2) [10, 100] = some Outcome.undefined) ∧
    List.Perm [(100 : Int), 999] [999, 100] ∧
    (∀ fuel, GetLCA_ID specTree (sentinel 0) (fuel + 2) [100, 999] =
      some (Outcome.value (-1))) ∧
    (∀ fuel, GetLCA_ID specTree (sentinel 0) fuel [999, 100] = none) := by
  refine ⟨List.Perm.swap _ _ _, ?_, ?_, List.Perm.swap _ _ _, ?_, ?_⟩
  · intro fuel
    exact GetLCA_ID_mono specTree strict 2 (fuel + 2) (by omega) _ _ (by decide)
  · intro fuel
    exact GetLCA_ID_mono specTree strict 2 (fuel + 2) (by omega) _ _ (by decide)
  · intro fuel
    exact GetLCA_ID_mono specTree (sentinel 0) 2 (fuel + 2) (by omega) _ _ (by decide)
  · intro fuel
    match fuel with
    | 0 => rfl
    | 1 => rfl
    | f + 2 =>
      have ht : TraceToRoot specTree (f + 2) 999 = some [999] :=
        TraceToRoot_mono specTree 1 (f + 2) 999 _ (by omega) (by decide)
      have h100 : TraceParent specTree 100 = 10 := by decide
      have h10 : TraceParent specTree 10 = 1 := by decide
      have hroot := walk_specTree_root [999] (by decide) f
      have hw : walk specTree (sentinel 0) [999] (f + 2) 100 = none := by
        rw [walk_succ, walk_succ]
        simp [scan, deref, sentinel, h100, h10, hroot]
      rw [GetLCA_ID, ht]
      simp only [foldTaxa, hw]

/-- C4, counterexample. In the example tree 10 lies on the trace of 100, so the
list [100, 10] is drawn from one path-to-root chain and 100 is its most specific
identifier; `GetLCA_ID` returns 10, and under no reading of past-the-end reads
and with no fuel does it return 100. Listed the other way round, [10, 100], the
scan for 100 fails and line 38 reads through `ancestors.end()`. -/
theorem GetLCA_ID_chain_not_deepest :
    TraceToRoot specTree 2 100 = some [100, 10] ∧
    GetLCA_ID specTree strict 2 [100, 10] = some (Outcome.value 10) ∧
    GetLCA_ID specTree strict 2 [10, 100] = some Outcome.undefined ∧
    ¬ ∃ pastEnd fuel, GetLCA_ID specTree pastEnd fuel [100, 10] =
      some (Outcome.value 100) := by
  refine ⟨by decide, by decide, by decide, ?_⟩
  rintro ⟨pastEnd, fuel, h⟩
  have h2 : GetLCA_ID specTree pastEnd 2 [100, 10] = some (Outcome.value 10) := rfl
  have := GetLCA_ID_det specTree pastEnd fuel 2 _ _ _ h h2
  exact absurd this (by decide)

/-- C4, amended. For every table, every reading of past-the-end reads and every
non-empty list of identifiers in which each identifier after the first lies on
the trace of the one before it (the list runs along one path-to-root chain from
the most specific to the least specific), `GetLCA_ID` returns the last listed
identifier, and that identifier is the least specific of the list: it equals or
lies on the trace of every listed identifier. -/
theorem GetLCA_ID_chain_last (tbl : TreeHashTable) (pastEnd : List Int → Option Int)
    (fuel : Nat) (taxIDs : List Int) (hne : taxIDs ≠ [])
    (hchain : List.Chain' (fun x y => ∃ p, TraceToRoot tbl fuel x = some p ∧ y ∈ p) taxIDs) :
    GetLCA_ID tbl pastEnd fuel taxIDs = some (Outcome.value (taxIDs.getLast hne)) ∧
    ∀ y ∈ taxIDs, y = taxIDs.getLast hne ∨
      ∃ p, TraceToRoot tbl fuel y = some p ∧ taxIDs.getLast hne ∈ p := by
  match taxIDs, hne, hchain with
  | [x], _, _ =>
    refine ⟨rfl, ?_⟩
    intro y hy
    left
    simpa using hy
  | x :: y :: rest, _, hc =>
    refine ⟨?_, chain_last_onTrace tbl fuel (y :: rest) x hc⟩
    have hc0 := hc
    rw [List.Chain', List.chain_cons] at hc
    obtain ⟨⟨p, hp, _⟩, _⟩ := hc
    obtain ⟨q, rfl⟩ := TraceToRoot_head tbl fuel x p hp
    rw [GetLCA_ID, hp]
    exact foldTaxa_chain tbl pastEnd fuel (y :: rest) x q hp hc0

/-- C4, amended, at the list [100, 10] of the example tree. -/
theorem GetLCA_ID_chain_last_witness :
    List.Chain' (fun x y => ∃ p, TraceToRoot specTree 2 x = some p ∧ y ∈ p) [100, 10] ∧
    GetLCA_ID specTree strict 2 [100, 10] = some (Outcome.value 10) :=
  have hc : List.Chain' (fun x y => ∃ p, TraceToRoot specTree 2 x = some p ∧ y ∈ p)
      [100, 10] := by
    simp only [List.chain'_cons, List.chain'_singleton, and_true]
    exact ⟨[100, 10], by decide, by decide⟩
  ⟨hc, (GetLCA_ID_chain_last specTree strict 2 [100, 10] (by decide) hc).1⟩

/-- C5, counterexample. In the cycle table the trace of 5 never ends, so
`GetLCA_ID` on two copies of 5 never returns, whatever the fuel. -/
theorem GetLCA_ID_replicate_cycle :
    ¬ ∃ pastEnd fuel r, GetLCA_ID cycleTable pastEnd fuel (List.replicate 2 5) = some r := by
  rintro ⟨pastEnd, fuel, r, h⟩
  have e : List.replicate 2 (5 : Int) = [5, 5] := rfl
  rw [e, GetLCA_ID, (TraceToRoot_cycleTable fuel).1] at h
  simp at h

/-- C5, amended. For every table, every identifier x and every n >= 1 such that
n = 1 or the trace of x returns, `GetLCA_ID` on n copies of x returns x. -/
theorem GetLCA_ID_replicate (tbl : TreeHashTable) (pastEnd : List Int → Option Int)
    (fuel : Nat) (x : Int) (n : Nat) (hn : 1 ≤ n)
    (h : n = 1 ∨ (TraceToRoot tbl fuel x).isSome = true) :
    GetLCA_ID tbl pastEnd fuel (List.replicate n x) = some (Outcome.value x) := by
  match n, hn, h with
  | 1, _, _ => rfl
  | m + 2, _, h =>
    have hs : (TraceToRoot tbl fuel x).isSome = true := by
      rcases h with h | h
      · omega
      · exact h
    obtain ⟨p, hp⟩ := Option.isSome_iff_exists.mp hs
    obtain ⟨q, rfl⟩ := TraceToRoot_head tbl fuel x p hp
    obtain ⟨g, rfl⟩ : ∃ g, fuel = g + 1 := by
      cases fuel with
      | zero => simp [TraceToRoot_zero] at hp
      | succ g => exact ⟨g, rfl⟩
    have e : List.replicate (m + 2) x = x :: x :: List.replicate m x := rfl
    rw [e, GetLCA_ID, hp]
    exact foldTaxa_replicate tbl pastEnd g x q (m + 1)

/-- C5, amended, at three copies of 100 in the example tree. -/
theorem GetLCA_ID_replicate_witness :
    (TraceToRoot specTree 2 100).isSome = true ∧
    GetLCA_ID specTree strict 2 [100, 100, 100] = some (Outcome.value 100) :=
  ⟨by decide, GetLCA_ID_replicate specTree strict 2 100 3 (by decide) (Or.inr (by decide))⟩

/-- C6. For every table and every identifier x, `GetLCA_ID` on the one-element
list [x] returns x: with any table, any reading of past-the-end reads, and any
fuel, fuel 0 included, at which no pass of any loop can take place. -/
theorem GetLCA_ID_singleton (tbl : TreeHashTable) (pastEnd : List Int → Option Int)
    (fuel : Nat) (x : Int) :
    GetLCA_ID tbl pastEnd fuel [x] = some (Outcome.value x) := rfl

/-- C7. For every table, `GetLCA_ID` on the empty list returns -1. -/
theorem GetLCA_ID_nil (tbl : TreeHashTable) (pastEnd : List Int → Option Int)
    (fuel : Nat) :
    GetLCA_ID tbl pastEnd fuel [] = some (Outcome.value (-1)) := rfl

/-- C8. For every table and identifier t, `TraceParent` returns the parentID of
the record keyed by t when there is one, and it returns -1 exactly when there is
no record keyed by t or the stored parentID is -1. -/
theorem TraceParent_spec (tbl : TreeHashTable) (t : Int) :
    (∀ node, find tbl t = some node → TraceParent tbl t = node.parentID) ∧
    (TraceParent tbl t = -1 ↔
      (find tbl t = none ∨ ∃ node, find tbl t = some node ∧ node.parentID = -1)) := by
  unfold TraceParent
  cases hf : find tbl t with
  | none => simp
  | some node => simp

/-- C8 at the record of 100 in the example tree and at the absent key 999. -/
theorem TraceParent_spec_witness :
    find specTree 100 = some (mkNode 100 10) ∧ TraceParent specTree 100 = 10 ∧
    find specTree 999 = none ∧ TraceParent specTree 999 = -1 :=
  ⟨by decide, (TraceParent_spec specTree 100).1 (mkNode 100 10) (by decide),
   by decide, (TraceParent_spec specTree 999).2.mpr (Or.inl (by decide))⟩

/-- C9. For every table and every identifier t with no record in the table,
`TraceToRoot` returns the one-element list [t] (one pass of its loop is enough). -/
theorem TraceToRoot_absent (tbl : TreeHashTable) (fuel : Nat) (t : Int)
    (h : find tbl t = none) :
    TraceToRoot tbl (fuel + 1) t = some [t] := by
  have hp : TraceParent tbl t = -1 := by simp [TraceParent, h]
  rw [TraceToRoot_succ, hp]
  simp

/-- C9 at the absent key 999 of the example tree. -/
theorem TraceToRoot_absent_witness :
    find specTree 999 = none ∧ TraceToRoot specTree 1 999 = some [999] :=
  ⟨by decide, TraceToRoot_absent specTree 0 999 (by decide)⟩

/-- C10, the code at the failing input. In the example tree the parent chain of
100 reaches the root 1, and `TraceToRoot` returns [100, 10]: the loop stops when
the parent is 1, before the root is pushed. It never returns [100, 10, 1]. -/
theorem TraceToRoot_specTree_leaf :
    TraceParent specTree 100 = 10 ∧ TraceParent specTree 10 = 1 ∧
    (∀ fuel, TraceToRoot specTree (fuel + 2) 100 = some [100, 10]) ∧
    ¬ ∃ fuel, TraceToRoot specTree fuel 100 = some [100, 10, 1] := by
  have h2 : TraceToRoot specTree 2 100 = some [100, 10] := by decide
  refine ⟨by decide, by decide, ?_, ?_⟩
  · intro fuel
    exact TraceToRoot_mono specTree 2 (fuel + 2) 100 _ (by omega) h2
  · rintro ⟨fuel, h⟩
    rcases Nat.le_total fuel 2 with hle | hle
    · have := TraceToRoot_mono specTree fuel 2 100 _ hle h
      rw [h2] at this
      exact absurd this (by decide)
    · have := TraceToRoot_mono specTree 2 fuel 100 _ hle h2
      rw [h] at this
      exact absurd this (by decide)

/-! Traces: termination and repetition -/

theorem scan_suffix (b : Int) : ∀ (l : List Int), scan b l <:+ l := by
  intro l
  induction l with
  | nil => exact List.suffix_refl _
  | cons x rest ih =>
    by_cases hx : b = x
    · simp [scan, hx]
    · simp only [scan, hx, if_false]
      exact List.IsSuffix.trans ih (List.suffix_cons x rest)

/-- A trace that has returned has no repeated identifier. -/
theorem TraceToRoot_nodup (tbl : TreeHashTable) :
    ∀ (f : Nat) (t : Int) (p : List Int), TraceToRoot tbl f t = some p → p.Nodup := by
  intro f
  induction f with
  | zero => intro t p h; simp [TraceToRoot_zero] at h
  | succ f ih =>
    intro t p h
    have h0 := h
    rw [TraceToRoot_succ] at h
    split at h
    · rw [Option.map_eq_some'] at h
      obtain ⟨p2, hp2, rfl⟩ := h
      refine List.nodup_cons.mpr ⟨?_, ih _ p2 hp2⟩
      intro hmem
      obtain ⟨q, hs, hq⟩ := TraceToRoot_scan tbl f _ t p2 hp2 hmem
      have hq2 := TraceToRoot_mono tbl f (f + 1) t _ (Nat.le_succ f) hq
      rw [h0] at hq2
      have e : p2 = q := List.tail_eq_of_cons_eq (Option.some.inj hq2)
      have hsuf := scan_suffix t p2
      rw [hs, e] at hsuf
      have := hsuf.length_le
      simp at this
    · have e : p = [t] := (Option.some.inj h).symm
      subst e
      exact List.nodup_singleton t

/-- A trace returns as soon as the parent chain reaches -1 or 1. -/
theorem TraceToRoot_of_reaches (tbl : TreeHashTable) :
    ∀ (k : Nat) (t : Int),
      ((TraceParent tbl)^[k + 1] t = -1 ∨ (TraceParent tbl)^[k + 1] t = 1) →
      ∃ p, TraceToRoot tbl (k + 1) t = some p := by
  intro k
  induction k with
  | zero =>
    intro t h
    refine ⟨[t], ?_⟩
    rw [TraceToRoot_succ]
    have h2 : TraceParent tbl t = -1 ∨ TraceParent tbl t = 1 := by simpa using h
    rw [if_neg]
    rintro ⟨h3, h4⟩
    rcases h2 with h2 | h2
    · exact h3 h2
    · exact h4 h2
  | succ k ih =>
    intro t h
    rw [TraceToRoot_succ]
    by_cases hc : TraceParent tbl t ≠ -1 ∧ TraceParent tbl t ≠ 1
    · rw [if_pos hc]
      rw [Function.iterate_succ_apply] at h
      obtain ⟨p, hp⟩ := ih (TraceParent tbl t) h
      exact ⟨t :: p, by rw [hp]; rfl⟩
    · rw [if_neg hc]
      exact ⟨[t], rfl⟩

/-- A trace that returns has met -1 or 1 on the parent chain. -/
theorem reaches_of_TraceToRoot (tbl : TreeHashTable) :
    ∀ (f : Nat) (t : Int) (p : List Int), TraceToRoot tbl f t = some p →
      ∃ k, (TraceParent tbl)^[k + 1] t = -1 ∨ (TraceParent tbl)^[k + 1] t = 1 := by
  intro f
  induction f with
  | zero => intro t p h; simp [TraceToRoot_zero] at h
  | succ f ih =>
    intro t p h
    rw [TraceToRoot_succ] at h
    by_cases hc : TraceParent tbl t ≠ -1 ∧ TraceParent tbl t ≠ 1
    · rw [if_pos hc, Option.map_eq_some'] at h
      obtain ⟨p2, hp2, _⟩ := h
      obtain ⟨k, hk⟩ := ih _ p2 hp2
      exact ⟨k + 1, by rw [Function.iterate_succ_apply]; exact hk⟩
    · refine ⟨0, ?_⟩
      simp only [Function.iterate_succ, Function.iterate_zero, Function.comp_apply, id]
      by_contra hn
      exact hc ⟨fun e => hn (Or.inl e), fun e => hn (Or.inr e)⟩

/-- C11, counterexample. In the cycle table (5 -> 6, 6 -> 5) the call
`TraceToRoot(5)` never returns, whatever the fuel: it neither terminates nor
reports the cycle. -/
theorem TraceToRoot_cycle_never_returns :
    ¬ ∃ fuel p, TraceToRoot cycleTable fuel 5 = some p := by
  rintro ⟨fuel, p, h⟩
  rw [(TraceToRoot_cycleTable fuel).1] at h
  simp at h

/-- C11, amended. For every table and identifier t, `TraceToRoot(t)` returns
exactly when the parent chain of t reaches -1 or 1 (k + 1 passes of the loop are
enough when it does so after k + 1 lookups), and a path it returns contains no
repeated identifier. -/
theorem TraceToRoot_returns (tbl : TreeHashTable) (t : Int) :
    (∀ k, ((TraceParent tbl)^[k + 1] t = -1 ∨ (TraceParent tbl)^[k + 1] t = 1) →
      ∃ p, TraceToRoot tbl (k + 1) t = some p) ∧
    ((∃ fuel p, TraceToRoot tbl fuel t = some p) ↔
      ∃ k, (TraceParent tbl)^[k + 1] t = -1 ∨ (TraceParent tbl)^[k + 1] t = 1) ∧
    (∀ fuel p, TraceToRoot tbl fuel t = some p → p.Nodup) := by
  refine ⟨fun k h => TraceToRoot_of_reaches tbl k t h, ⟨?_, ?_⟩, ?_⟩
  · rintro ⟨fuel, p, h⟩
    exact reaches_of_TraceToRoot tbl fuel t p h
  · rintro ⟨k, h⟩
    obtain ⟨p, hp⟩ := TraceToRoot_of_reaches tbl k t h
    exact ⟨k + 1, p, hp⟩
  · intro fuel p h
    exact TraceToRoot_nodup tbl fuel t p h

/-- C11, amended, at the identifier 100 of the example tree. -/
theorem TraceToRoot_returns_witness :
    (TraceParent specTree)^[2] 100 = 1 ∧
    (∃ p, TraceToRoot specTree 2 100 = some p) ∧
    TraceToRoot specTree 2 100 = some [100, 10] ∧ [(100 : Int), 10].Nodup :=
  ⟨by decide, (TraceToRoot_returns specTree 100).1 1 (Or.inr (by decide)), by decide,
   (TraceToRoot_returns specTree 100).2.2 2 [100, 10] (by decide)⟩

/-- C12, the code at the failing input. The example tree is a tree: the parent
chain of every record reaches the root 1 within two steps, and the root record is
its own parent. On [100, 200] the upward walk of 200 over the ancestors [100, 10]
reads through `ancestors.end()` in its first pass; when that read yields a value
that matches nothing, the walk passes 200, 20, 1, 1, 1, ... and never ends, so
`GetLCA_ID` never returns. -/
theorem GetLCA_ID_specTree_diverges :
    (∀ key ∈ specTree.map Prod.fst, (TraceParent specTree)^[2] key = 1) ∧
    (∀ fuel, walk specTree strict [100, 10] (fuel + 1) 200 = some WalkEnd.undefined) ∧
    (∀ fuel, walk specTree (sentinel 0) [100, 10] fuel 200 = none) ∧
    ¬ ∃ fuel r, GetLCA_ID specTree (sentinel 0) fuel [100, 200] = some r := by
  have hw : ∀ fuel, walk specTree (sentinel 0) [100, 10] fuel 200 = none := by
    intro fuel
    match fuel with
    | 0 => rfl
    | 1 => rfl
    | f + 2 =>
      have h200 : TraceParent specTree 200 = 20 := by decide
      have h20 : TraceParent specTree 20 = 1 := by decide
      have hroot := walk_specTree_root [100, 10] (by decide) f
      rw [walk_succ, walk_succ]
      simp [scan, deref, sentinel, h200, h20, hroot]
  refine ⟨by decide, ?_, hw, ?_⟩
  · intro fuel
    rw [walk_succ]
    rfl
  · rintro ⟨fuel, r, h⟩
    match fuel, h with
    | 0, h => simp [GetLCA_ID, TraceToRoot_zero] at h
    | 1, h =>
      have e : GetLCA_ID specTree (sentinel 0) 1 [100, 200] = none := rfl
      rw [e] at h
      simp at h
    | f + 2, h =>
      have ht : TraceToRoot specTree (f + 2) 100 = some [100, 10] :=
        TraceToRoot_mono specTree 2 (f + 2) 100 _ (by omega) (by decide)
      rw [GetLCA_ID, ht] at h
      simp only [foldTaxa, hw] at h
      simp at h

/-! HelperFunctions: the command line string and the extension -/

theorem foldl_append_sep (sep : List Char) (f : List Char → List Char) :
    ∀ (rest : List (List Char)) (init : List Char),
      rest.foldl (fun result y => result ++ (sep ++ f y)) init =
        init ++ (rest.map (fun y => sep ++ f y)).flatten := by
  intro rest
  induction rest with
  | nil => intro init; simp
  | cons y rest ih =>
    intro init
    simp [List.foldl_cons, ih, List.append_assoc]

theorem intercalate_cons_eq (sep x : List Char) :
    ∀ (rest : List (List Char)),
      List.intercalate sep (x :: rest) = x ++ (rest.map (fun y => sep ++ y)).flatten := by
  intro rest
  induction rest generalizing x with
  | nil => simp [List.intercalate]
  | cons y rest ih =>
    have h := ih y
    simp only [List.intercalate, List.intersperse, List.flatten_cons, List.map_cons] at h ⊢
    rw [h, List.append_assoc]

/-- C17. `ToCmdLineStr` returns the empty string on the empty range; on a
non-empty range it returns a double quote, then the modified elements in input
order with the separator between consecutive ones, then a double quote, the
modifier being the identity when none is given. On foo.fasta, bar.fasta it
gives "foo.fasta bar.fasta" (quoted) with the defaults and "foo_bar" (quoted)
with the separator _ and `RemoveExtension`. -/
theorem ToCmdLineStr_spec (sep : List Char) (modify : Option (List Char → List Char)) :
    ToCmdLineStr [] sep modify = [] ∧
    (∀ (x : List Char) (rest : List (List Char)),
      ToCmdLineStr (x :: rest) sep modify =
        [quote] ++ List.intercalate sep ((x :: rest).map (modify.getD (fun a => a)))
          ++ [quote]) ∧
    ToCmdLineStr ["foo.fasta".toList, "bar.fasta".toList] " ".toList none =
      [quote] ++ "foo.fasta bar.fasta".toList ++ [quote] ∧
    ToCmdLineStr ["foo.fasta".toList, "bar.fasta".toList] "_".toList (some RemoveExtension) =
      [quote] ++ "foo_bar".toList ++ [quote] := by
  refine ⟨rfl, ?_, by decide, by decide⟩
  intro x rest
  simp only [ToCmdLineStr, List.map_cons]
  rw [foldl_append_sep, intercalate_cons_eq, List.map_map]
  simp [List.append_assoc, Function.comp_def]

/-- What `RemoveExtension` returns: the text before the first dot. -/
theorem RemoveExtension_takeWhile (s : List Char) :
    RemoveExtension s = s.takeWhile (fun c => c != '.') := by
  have key : ∀ (l : List Char),
      (match findFrom ['.'] l with
        | some found => l.take found
        | none => l) = l.takeWhile (fun c => c != '.') := by
    intro l
    induction l with
    | nil => rfl
    | cons c cs ih =>
      by_cases hc : '.' = c
      · subst hc
        simp [findFrom, startsWith]
      · have hc2 : (c != '.') = true := by
          simp only [bne_iff_ne, ne_eq]
          exact fun e => hc e.symm
        simp only [findFrom, startsWith, hc, decide_False, Bool.false_and]
        rw [List.takeWhile_cons, hc2]
        simp only [if_true]
        cases hf : findFrom ['.'] cs with
        | none =>
          rw [hf] at ih
          simp only [Option.map_none', Bool.false_eq_true, if_false]
          rw [← ih]
        | some k =>
          rw [hf] at ih
          simp only [Option.map_some', Bool.false_eq_true, if_false, List.take_succ_cons]
          rw [← ih]
  have h := key s
  simp only [RemoveExtension, strFind, Nat.zero_le, if_true, List.drop_zero, Nat.add_zero,
    Option.map_id', substr]
  cases hf : findFrom ['.'] s with
  | none => rw [hf] at h; simpa using h
  | some k => rw [hf] at h; simpa using h

/-- C18, the code at the failing input. `RemoveExtension` cuts the text at its
first dot, not at its last: "./data/foo.txt" becomes the empty text and "a.b.txt"
becomes "a", while "foo.txt" becomes "foo". In general it returns the characters
before the first dot. -/
theorem RemoveExtension_first_dot :
    RemoveExtension "./data/foo.txt".toList = [] ∧
    RemoveExtension "a.b.txt".toList = "a".toList ∧
    RemoveExtension "foo.txt".toList = "foo".toList ∧
    (∀ s : List Char, RemoveExtension s = s.takeWhile (fun c => c != '.')) :=
  ⟨by decide, by decide, by decide, RemoveExtension_takeWhile⟩

/-! Loading: the unreadable source and the short record -/

/-- C16. When the stream cannot be opened, `LoadData` leaves by the exception
of `ReadFile` with the table it was called with: every `TraceParent` lookup gives
afterwards what it gave before, and for a fresh (empty) table that is -1. -/
theorem LoadData_unreadable (fs : FileSystem) (nodesDumpFile : List Char)
    (tbl : TreeHashTable) (h : fs nodesDumpFile = none) :
    LoadData fs nodesDumpFile tbl =
      some (LoadEnd.threw ("Cannot read: ".toList ++ nodesDumpFile) tbl) ∧
    (∀ e, LoadData fs nodesDumpFile tbl = some e →
      ∀ t, (LoadEnd.table e).map (fun after => TraceParent after t) =
        some (TraceParent tbl t)) ∧
    (∀ t, TraceParent [] t = -1) := by
  have h1 : LoadData fs nodesDumpFile tbl =
      some (LoadEnd.threw ("Cannot read: ".toList ++ nodesDumpFile) tbl) := by
    simp [LoadData, ReadFile, h]
  refine ⟨h1, ?_, fun t => rfl⟩
  intro e he t
  rw [h1] at he
  have e2 := Option.some.inj he
  subst e2
  rfl

/-- C16 at a file system without the file, on the example tree. -/
theorem LoadData_unreadable_witness :
    (fun _ => none : FileSystem) "nodes.dmp".toList = none ∧
    LoadData (fun _ => none) "nodes.dmp".toList specTree =
      some (LoadEnd.threw "Cannot read: nodes.dmp".toList specTree) :=
  ⟨rfl, (LoadData_unreadable (fun _ => none) "nodes.dmp".toList specTree rfl).1⟩

/-- C15, the code at the failing input. The dump "5 | 6" (one record of two
fields, with the delimiters of nodes.dmp) splits into the fields "5" and "6";
the constructor then reads `fields[2]` to `fields[12]`, which the vector does not
have, and `LoadData` is undefined: it neither throws nor zero-fills. The
constructor is undefined on every field list shorter than 13. -/
theorem LoadData_short_record :
    splitFields ("5".toList ++ fieldDelim ++ "6".toList) 8 0 [] =
      some ["5".toList, "6".toList] ∧
    LoadData (oneFile "nodes.dmp".toList ("5".toList ++ fieldDelim ++ "6".toList ++ rowDelim))
      "nodes.dmp".toList [] = some LoadEnd.undefined ∧
    (∀ fields : List (List Char), 13 ≤ fields.length ∨ TaxonNode.TaxonNode fields = none) := by
  refine ⟨by decide, by decide, ?_⟩
  intro fields
  by_cases h : fields.length < 13
  · right
    simp [TaxonNode.TaxonNode, h]
  · left
    omega

/-! The value returned by `GetLCA_ID` -/

theorem scan_cons_head (t : Int) :
    ∀ (l : List Int) (h : Int) (q : List Int), scan t l = h :: q → h = t := by
  intro l
  induction l with
  | nil => intro h q e; simp [scan] at e
  | cons a rest ih =>
    intro h q e
    by_cases ha : t = a
    · simp only [scan, ha, if_true] at e
      rw [ha]
      exact (List.head_eq_of_cons_eq e).symm
    · simp only [scan, ha, if_false] at e
      exact ih h q e

theorem not_mem_of_scan_nil (t : Int) : ∀ (l : List Int), scan t l = [] → t ∉ l := by
  intro l
  induction l with
  | nil => intro _; simp
  | cons a rest ih =>
    intro e
    by_cases ha : t = a
    · simp [scan, ha] at e
    · simp only [scan, ha, if_false] at e
      intro hm
      rcases List.mem_cons.mp hm with h1 | h1
      · exact ha h1
      · exact ih e h1

/-- Of two members of a list, one lies in the part of the list that starts at
the other. -/
theorem mem_scan_or (x y : Int) :
    ∀ (l : List Int), x ∈ l → y ∈ l → y ∈ scan x l ∨ x ∈ scan y l := by
  intro l
  induction l with
  | nil => intro hx; simp at hx
  | cons a rest ih =>
    intro hx hy
    by_cases hxa : x = a
    · left
      simp only [scan, hxa, if_true]
      exact hy
    · by_cases hya : y = a
      · right
        simp only [scan, hya, if_true]
        exact hx
      · simp only [scan, hxa, hya, if_false]
        have hx2 : x ∈ rest := by
          rcases List.mem_cons.mp hx with e | m
          · exact absurd e hxa
          · exact m
        have hy2 : y ∈ rest := by
          rcases List.mem_cons.mp hy with e | m
          · exact absurd e hya
          · exact m
        exact ih hx2 hy2

/-- Every member of a trace is reached from its start by parent lookups. -/
theorem mem_trace_iterate (tbl : TreeHashTable) :
    ∀ (f : Nat) (a c : Int) (p : List Int), TraceToRoot tbl f a = some p → c ∈ p →
      ∃ k, (TraceParent tbl)^[k] a = c := by
  intro f
  induction f with
  | zero => intro a c p h _; simp [TraceToRoot_zero] at h
  | succ f ih =>
    intro a c p h hc
    rw [TraceToRoot_succ] at h
    split at h
    · rw [Option.map_eq_some'] at h
      obtain ⟨p2, hp2, rfl⟩ := h
      rcases List.mem_cons.mp hc with e | m
      · exact ⟨0, e.symm⟩
      · obtain ⟨k, hk⟩ := ih _ c p2 hp2 m
        exact ⟨k + 1, by rw [Function.iterate_succ_apply]; exact hk⟩
    · have e : p = [a] := (Option.some.inj h).symm
      subst e
      exact ⟨0, (List.mem_singleton.mp hc).symm⟩

/-- A walk that stops on an identifier equal to the read `*ancestorIter`, when
no past-the-end value equals an identifier of the walk: the iterator points into
the ancestors at the first identifier of the parent chain that is among them. -/
theorem walk_stopped_match (tbl : TreeHashTable) (pastEnd : List Int → Option Int)
    (anc : List Int) :
    ∀ (f : Nat) (t0 t2 : Int) (it : List Int),
      (∀ l s, pastEnd l = some s → ∀ k, (TraceParent tbl)^[k] t0 ≠ s) →
      walk tbl pastEnd anc f t0 = some (WalkEnd.stopped t2 it) →
      deref pastEnd anc it = some t2 →
      ∃ j q, (TraceParent tbl)^[j] t0 = t2 ∧ it = t2 :: q ∧ scan t2 anc = t2 :: q ∧
        (∀ i, i < j → (TraceParent tbl)^[i] t0 ∉ anc) ∧
        (∀ i, 1 ≤ i → i ≤ j → (TraceParent tbl)^[i] t0 ≠ -1) := by
  intro f
  induction f with
  | zero => intro t0 t2 it _ h; simp [walk_zero] at h
  | succ f ih =>
    intro t0 t2 it hpe h hd2
    rw [walk_succ] at h
    cases hd : deref pastEnd anc (scan t0 anc) with
    | none => rw [hd] at h; simp at h
    | some v =>
      rw [hd] at h
      simp only at h
      by_cases hv : t0 = v
      · rw [if_pos hv] at h
        have h2 := Option.some.inj h
        injection h2 with e1 e2
        subst e1
        subst e2
        cases hs : scan t0 anc with
        | nil =>
          rw [hs] at hd
          simp only [deref] at hd
          exact absurd hv (hpe anc v hd 0)
        | cons h1 q =>
          have e := scan_cons_head t0 anc h1 q hs
          subst e
          exact ⟨0, q, rfl, rfl, rfl, fun i hi => absurd hi (Nat.not_lt_zero i),
            fun i h1 h0 => absurd (Nat.le_trans h1 h0) (by decide)⟩
      · rw [if_neg hv] at h
        have hnil : scan t0 anc = [] := by
          cases hs : scan t0 anc with
          | nil => rfl
          | cons h1 q =>
            have e := scan_cons_head t0 anc h1 q hs
            rw [hs] at hd
            simp only [deref] at hd
            exact absurd ((Option.some.inj hd).symm.trans e).symm hv
        by_cases hp : TraceParent tbl t0 ≠ -1
        · rw [if_pos hp] at h
          have hpe2 : ∀ l s, pastEnd l = some s →
              ∀ k, (TraceParent tbl)^[k] (TraceParent tbl t0) ≠ s := by
            intro l s hl k
            have := hpe l s hl (k + 1)
            rwa [Function.iterate_succ_apply] at this
          obtain ⟨j, q, hj, hit, hsc, hmin, hne⟩ := ih _ t2 it hpe2 h hd2
          refine ⟨j + 1, q, by rw [Function.iterate_succ_apply]; exact hj, hit, hsc, ?_, ?_⟩
          · intro i hi
            cases i with
            | zero => exact not_mem_of_scan_nil t0 anc hnil
            | succ i =>
              rw [Function.iterate_succ_apply]
              exact hmin i (by omega)
          · intro i h1 h0
            cases i with
            | zero => omega
            | succ i =>
              rw [Function.iterate_succ_apply]
              cases i with
              | zero => exact hp
              | succ i => exact hne (i + 1) (by omega) (by omega)
        · rw [if_neg hp] at h
          have h2 := Option.some.inj h
          injection h2 with e1 e2
          subst e1
          subst e2
          rw [hnil] at hd2
          simp only [deref] at hd2
          exact absurd rfl (hpe anc _ hd2 1)

/-- The result of the loop over the identifiers, when it is a value other than
-1: a member of the ancestors that every folded identifier reaches by parent
lookups, and that is reached from every member of the ancestors that all folded
identifiers reach. -/
theorem foldTaxa_value_lca (tbl : TreeHashTable) (pastEnd : List Int → Option Int)
    (f : Nat)
    (hloops : ∀ x k, (TraceParent tbl)^[k + 1] x = x → TraceParent tbl x = x) :
    ∀ (ts : List Int) (a : Int) (q : List Int) (r : Int),
      TraceToRoot tbl f a = some (a :: q) →
      (∀ l s, pastEnd l = some s → ∀ x ∈ ts, ∀ k, (TraceParent tbl)^[k] x ≠ s) →
      r ≠ -1 →
      foldTaxa tbl pastEnd f (a :: q) ts = some (Outcome.value r) →
      r ∈ a :: q ∧ (∀ x ∈ ts, ∃ k, (TraceParent tbl)^[k] x = r) ∧
      (∀ c ∈ a :: q, (∀ x ∈ ts, ∃ k, (TraceParent tbl)^[k] x = c) →
        ∃ k, (TraceParent tbl)^[k] r = c) := by
  intro ts
  induction ts with
  | nil =>
    intro a q r ha _ _ h
    simp only [foldTaxa, deref] at h
    have e : a = r := by
      have := Option.some.inj h
      injection this
    subst e
    refine ⟨List.mem_cons_self _ _, fun x hx => absurd hx (List.not_mem_nil x), ?_⟩
    intro c hc _
    exact mem_trace_iterate tbl f a c _ ha hc
  | cons t rest ih =>
    intro a q r ha hpe hr h
    rw [foldTaxa] at h
    cases hw : walk tbl pastEnd (a :: q) f t with
    | none => rw [hw] at h; simp at h
    | some w =>
      rw [hw] at h
      cases w with
      | undefined => simp at h
      | stopped t2 it =>
        simp only at h
        cases hd : deref pastEnd (a :: q) it with
        | none => rw [hd] at h; simp at h
        | some v =>
          rw [hd] at h
          simp only at h
          by_cases hv : t2 = v
          · rw [if_pos hv] at h
            subst hv
            have hpet : ∀ l s, pastEnd l = some s → ∀ k, (TraceParent tbl)^[k] t ≠ s :=
              fun l s hl k => hpe l s hl t (List.mem_cons_self _ _) k
            obtain ⟨j, q2, hj, hit, hsc, hmin, _⟩ :=
              walk_stopped_match tbl pastEnd (a :: q) f t t2 it hpet hw hd
            subst hit
            have hsuf : t2 :: q2 <:+ a :: q := hsc ▸ scan_suffix t2 (a :: q)
            have hm : t2 ∈ a :: q := hsuf.subset (List.mem_cons_self _ _)
            obtain ⟨q3, hs3, ht2⟩ := TraceToRoot_scan tbl f a t2 _ ha hm
            rw [hsc] at hs3
            have e3 : q2 = q3 := List.tail_eq_of_cons_eq hs3
            subst e3
            have hpe2 : ∀ l s, pastEnd l = some s →
                ∀ x ∈ rest, ∀ k, (TraceParent tbl)^[k] x ≠ s :=
              fun l s hl x hx k => hpe l s hl x (List.mem_cons_of_mem _ hx) k
            obtain ⟨hr1, hr2, hr3⟩ := ih t2 q2 r ht2 hpe2 hr h
            refine ⟨hsuf.subset hr1, ?_, ?_⟩
            · intro x hx
              rcases List.mem_cons.mp hx with e | m
              · subst e
                obtain ⟨k, hk⟩ := mem_trace_iterate tbl f t2 r _ ht2 hr1
                refine ⟨k + j, ?_⟩
                rw [Function.iterate_add_apply, hj, hk]
              · exact hr2 x m
            · intro c hc hall
              have hc2 : c ∈ t2 :: q2 := by
                obtain ⟨K, hK⟩ := hall t (List.mem_cons_self _ _)
                have hjK : j ≤ K := by
                  by_contra hlt
                  exact hmin K (by omega) (hK ▸ hc)
                have hcm : (TraceParent tbl)^[K - j] t2 = c := by
                  rw [← hj, ← Function.iterate_add_apply]
                  have : K - j + j = K := by omega
                  rw [this, hK]
                rcases mem_scan_or t2 c (a :: q) hm hc with h1 | h1
                · rw [hsc] at h1
                  exact h1
                · obtain ⟨qc, hsc2, htc⟩ := TraceToRoot_scan tbl f a c _ ha hc
                  rw [hsc2] at h1
                  obtain ⟨i, hi⟩ := mem_trace_iterate tbl f c t2 _ htc h1
                  have hcyc : (TraceParent tbl)^[K - j + i] c = c := by
                    rw [Function.iterate_add_apply, hi, hcm]
                  have hmc : t2 = c := by
                    cases hn : K - j + i with
                    | zero =>
                      have hi0 : i = 0 := by omega
                      rw [hi0] at hi
                      exact hi.symm
                    | succ n =>
                      rw [hn] at hcyc
                      have hfix := hloops c n hcyc
                      rw [← hi]
                      exact Function.iterate_fixed hfix i
                  rw [hmc]
                  exact List.mem_cons_self _ _
              exact hr3 c hc2 (fun x hx => hall x (List.mem_cons_of_mem _ hx))
          · rw [if_neg hv] at h
            have := Option.some.inj h
            injection this with e
            exact absurd e.symm hr

/-- A parent relation that goes down in some rank, wherever it moves at all,
has no cycle other than self-loops. -/
theorem only_self_loops_of_rank (tbl : TreeHashTable) (d : Int → Nat)
    (hd : ∀ x, TraceParent tbl x = x ∨ d (TraceParent tbl x) < d x) :
    ∀ x k, (TraceParent tbl)^[k + 1] x = x → TraceParent tbl x = x := by
  have hle : ∀ n y, d ((TraceParent tbl)^[n] y) ≤ d y := by
    intro n
    induction n with
    | zero => intro y; exact Nat.le_refl _
    | succ n ih =>
      intro y
      rw [Function.iterate_succ_apply]
      rcases hd y with e | l
      · rw [e]; exact ih y
      · exact Nat.le_trans (ih _) (Nat.le_of_lt l)
  intro x k h
  rcases hd x with e | l
  · exact e
  · exfalso
    have h1 := hle k (TraceParent tbl x)
    rw [← Function.iterate_succ_apply, h] at h1
    omega

/-- The parent of an identifier in the example tree. -/
theorem TraceParent_specTree (x : Int) :
    TraceParent specTree x =
      if x = 1 ∨ x = 10 ∨ x = 20 then 1
      else if x = 100 ∨ x = 101 then 10
      else if x = 200 then 20 else -1 := by
  by_cases h1 : x = 1
  · subst h1; rfl
  by_cases h10 : x = 10
  · subst h10; rfl
  by_cases h20 : x = 20
  · subst h20; rfl
  by_cases h100 : x = 100
  · subst h100; rfl
  by_cases h101 : x = 101
  · subst h101; rfl
  by_cases h200 : x = 200
  · subst h200; rfl
  have b1 : (x == 1) = false := by simpa using h1
  have b10 : (x == 10) = false := by simpa using h10
  have b20 : (x == 20) = false := by simpa using h20
  have b100 : (x == 100) = false := by simpa using h100
  have b101 : (x == 101) = false := by simpa using h101
  have b200 : (x == 200) = false := by simpa using h200
  simp [TraceParent, find, specTree, List.lookup, b1, b10, b20, b100, b101, b200,
    h1, h10, h20, h100, h101, h200]

/-- The example tree has no cycle other than the self-loop of the root (and
that of -1, which has no record). -/
theorem specTree_only_self_loops :
    ∀ x k, (TraceParent specTree)^[k + 1] x = x → TraceParent specTree x = x := by
  apply only_self_loops_of_rank specTree
    (fun x => if x = 100 ∨ x = 101 ∨ x = 200 then 2 else if x = -1 ∨ x = 1 then 0 else 1)
  intro x
  rw [TraceParent_specTree]
  by_cases h1 : x = 1
  · subst h1; left; rfl
  by_cases h10 : x = 10
  · subst h10; right; decide
  by_cases h20 : x = 20
  · subst h20; right; decide
  by_cases h100 : x = 100
  · subst h100; right; decide
  by_cases h101 : x = 101
  · subst h101; right; decide
  by_cases h200 : x = 200
  · subst h200; right; decide
  by_cases hm : x = -1
  · subst hm; left; rfl
  right
  simp [h1, h10, h20, h100, h101, h200, hm]

/-- In the example tree the parent chains of 100 and of 101 never meet 0. -/
theorem specTree_chain_ne_zero :
    ∀ x ∈ [(100 : Int), 101], ∀ k, (TraceParent specTree)^[k] x ≠ 0 := by
  have hroot : ∀ k, (TraceParent specTree)^[k] 1 = 1 :=
    fun k => Function.iterate_fixed (by decide) k
  intro x hx k
  have hx2 : x = 100 ∨ x = 101 := by simpa using hx
  match k with
  | 0 => rcases hx2 with e | e <;> subst e <;> decide
  | 1 => rcases hx2 with e | e <;> subst e <;> decide
  | k + 2 =>
    rw [Function.iterate_succ_apply, Function.iterate_succ_apply]
    have h2 : TraceParent specTree (TraceParent specTree x) = 1 := by
      rcases hx2 with e | e <;> subst e <;> decide
    rw [h2, hroot k]
    decide

/-- C19. For every table whose parent relation has no cycle other than
self-loops, and every list of at least two identifiers, if `GetLCA_ID` returns a
value r other than -1 (under the strict reading, or under any reading whose
past-the-end values equal no identifier on the parent chains of the listed
identifiers), then r is reached by parent lookups from every listed identifier,
and every identifier that is reached from every listed identifier and lies on
the trace of the first one is reached from r. -/
theorem GetLCA_ID_value_lowest (tbl : TreeHashTable) (pastEnd : List Int → Option Int)
    (fuel : Nat) (first second : Int) (rest : List Int) (r : Int)
    (hloops : ∀ x k, (TraceParent tbl)^[k + 1] x = x → TraceParent tbl x = x)
    (hpe : ∀ l s, pastEnd l = some s →
      ∀ x ∈ first :: second :: rest, ∀ k, (TraceParent tbl)^[k] x ≠ s)
    (hr : r ≠ -1)
    (h : GetLCA_ID tbl pastEnd fuel (first :: second :: rest) = some (Outcome.value r)) :
    (∀ x ∈ first :: second :: rest, ∃ k, (TraceParent tbl)^[k] x = r) ∧
    (∀ c, (∀ x ∈ first :: second :: rest, ∃ k, (TraceParent tbl)^[k] x = c) →
      (∃ path, TraceToRoot tbl fuel first = some path ∧ c ∈ path) →
      ∃ k, (TraceParent tbl)^[k] r = c) := by
  rw [GetLCA_ID] at h
  cases ht : TraceToRoot tbl fuel first with
  | none => rw [ht] at h; simp at h
  | some anc =>
    rw [ht] at h
    simp only at h
    obtain ⟨q, rfl⟩ := TraceToRoot_head tbl fuel first anc ht
    have hpe2 : ∀ l s, pastEnd l = some s →
        ∀ x ∈ second :: rest, ∀ k, (TraceParent tbl)^[k] x ≠ s :=
      fun l s hl x hx k => hpe l s hl x (List.mem_cons_of_mem _ hx) k
    obtain ⟨h1, h2, h3⟩ :=
      foldTaxa_value_lca tbl pastEnd fuel hloops (second :: rest) first q r ht hpe2 hr h
    refine ⟨?_, ?_⟩
    · intro x hx
      rcases List.mem_cons.mp hx with e | m
      · subst e
        exact mem_trace_iterate tbl fuel x r _ ht h1
      · exact h2 x m
    · rintro c hall ⟨path, hp, hc⟩
      have e := Option.some.inj hp
      subst e
      exact h3 c hc (fun x hx => hall x (List.mem_cons_of_mem _ hx))

/-- C19 at the list [100, 101] of the example tree, the past-the-end reads
yielding 0: the value returned is 10. -/
theorem GetLCA_ID_value_lowest_witness :
    GetLCA_ID specTree (sentinel 0) 2 [100, 101] = some (Outcome.value 10) ∧
    (∀ x ∈ [(100 : Int), 101], ∃ k, (TraceParent specTree)^[k] x = 10) :=
  ⟨by decide,
   (GetLCA_ID_value_lowest specTree (sentinel 0) 2 100 101 [] 10 specTree_only_self_loops
      (fun _ s hs x hx k => by
        have e : s = 0 := by
          simp only [sentinel] at hs
          exact (Option.some.inj hs).symm
        rw [e]
        exact specTree_chain_ne_zero x hx k)
      (by decide) (by decide)).1⟩

/-! Appending an identifier that is already listed -/

/-- From the start of a trace to one of its members: the parent chain reaches
the member without meeting, before it, any identifier of the part of the trace
that starts at the member, and without meeting -1 after the start. -/
theorem trace_reach_member (tbl : TreeHashTable) :
    ∀ (f : Nat) (a m : Int) (p : List Int), TraceToRoot tbl f a = some p → m ∈ p →
      ∃ d, (TraceParent tbl)^[d] a = m ∧
        (∀ i, i < d → (TraceParent tbl)^[i] a ∉ scan m p) ∧
        (∀ i, 1 ≤ i → i ≤ d → (TraceParent tbl)^[i] a ≠ -1) := by
  intro f
  induction f with
  | zero => intro a m p h _; simp [TraceToRoot_zero] at h
  | succ f ih =>
    intro a m p h hm
    by_cases hma : m = a
    · exact ⟨0, hma.symm, fun i hi => absurd hi (Nat.not_lt_zero i),
        fun i h1 h0 => absurd (Nat.le_trans h1 h0) (by decide)⟩
    · have hnd := TraceToRoot_nodup tbl (f + 1) a p h
      rw [TraceToRoot_succ] at h
      by_cases hc : TraceParent tbl a ≠ -1 ∧ TraceParent tbl a ≠ 1
      · rw [if_pos hc, Option.map_eq_some'] at h
        obtain ⟨p2, hp2, rfl⟩ := h
        have hm2 : m ∈ p2 := by
          rcases List.mem_cons.mp hm with e | m2
          · exact absurd e hma
          · exact m2
        obtain ⟨d, hd, hmin, hne⟩ := ih _ m p2 hp2 hm2
        have hsc : scan m (a :: p2) = scan m p2 := by simp [scan, hma]
        refine ⟨d + 1, by rw [Function.iterate_succ_apply]; exact hd, ?_, ?_⟩
        · intro i hi
          rw [hsc]
          cases i with
          | zero =>
            intro hmem
            exact (List.nodup_cons.mp hnd).1 ((scan_suffix m p2).subset hmem)
          | succ i =>
            rw [Function.iterate_succ_apply]
            exact hmin i (by omega)
        · intro i h1 h0
          cases i with
          | zero => omega
          | succ i =>
            rw [Function.iterate_succ_apply]
            cases i with
            | zero => exact hc.1
            | succ i => exact hne (i + 1) (by omega) (by omega)
      · rw [if_neg hc] at h
        have e : p = [a] := (Option.some.inj h).symm
        subst e
        exact absurd (List.mem_singleton.mp hm) hma

/-- A walk whose parent chain meets the ancestors first at their head, without
meeting -1 on the way, ends there, unless a past-the-end read cuts it. -/
theorem walk_reaches (tbl : TreeHashTable) (pastEnd : List Int → Option Int)
    (anc q : List Int) :
    ∀ (k : Nat) (x : Int),
      (∀ l s, pastEnd l = some s → ∀ i, (TraceParent tbl)^[i] x ≠ s) →
      (∀ i, i < k → (TraceParent tbl)^[i] x ∉ anc) →
      (∀ i, 1 ≤ i → i ≤ k → (TraceParent tbl)^[i] x ≠ -1) →
      scan ((TraceParent tbl)^[k] x) anc = (TraceParent tbl)^[k] x :: q →
      ∀ f, k + 1 ≤ f →
        walk tbl pastEnd anc f x = some WalkEnd.undefined ∨
        walk tbl pastEnd anc f x =
          some (WalkEnd.stopped ((TraceParent tbl)^[k] x) ((TraceParent tbl)^[k] x :: q)) := by
  intro k
  induction k with
  | zero =>
    intro x _ _ _ hs f hf
    obtain ⟨g, rfl⟩ : ∃ g, f = g + 1 := ⟨f - 1, by omega⟩
    right
    simp only [Function.iterate_zero, id] at hs ⊢
    rw [walk_succ, hs]
    simp [deref]
  | succ k ih =>
    intro x hpe hmin hne hs f hf
    obtain ⟨g, rfl⟩ : ∃ g, f = g + 1 := ⟨f - 1, by omega⟩
    have hx : x ∉ anc := hmin 0 (by omega)
    rw [walk_succ, scan_of_not_mem x anc hx]
    cases hp : pastEnd anc with
    | none => left; simp [deref, hp]
    | some s =>
      have hxs : x ≠ s := hpe anc s hp 0
      have hup : TraceParent tbl x ≠ -1 := hne 1 (by omega) (by omega)
      simp only [deref, hp, if_neg hxs, if_pos hup]
      rw [Function.iterate_succ_apply] at hs ⊢
      refine ih (TraceParent tbl x) ?_ ?_ ?_ hs g (by omega)
      · intro l s2 hl i
        have := hpe l s2 hl (i + 1)
        rwa [Function.iterate_succ_apply] at this
      · intro i hi
        have := hmin (i + 1) (by omega)
        rwa [Function.iterate_succ_apply] at this
      · intro i h1 h0
        have := hne (i + 1) (by omega) (by omega)
        rwa [Function.iterate_succ_apply] at this

/-- Folding in, after the identifiers `ts`, an identifier x whose parent chain
meets the ancestors first at their head, or which is one of `ts`: the loop ends
with the value it has without x, unless a past-the-end read cuts the walk of x. -/
theorem foldTaxa_append_member (tbl : TreeHashTable) (pastEnd : List Int → Option Int)
    (f : Nat) (x : Int)
    (hpex : ∀ l s, pastEnd l = some s → ∀ i, (TraceParent tbl)^[i] x ≠ s) :
    ∀ (ts : List Int) (a : Int) (q : List Int) (r : Int),
      TraceToRoot tbl f a = some (a :: q) →
      (∀ l s, pastEnd l = some s → ∀ y ∈ ts, ∀ k, (TraceParent tbl)^[k] y ≠ s) →
      ((∃ k, (TraceParent tbl)^[k] x = a ∧
          (∀ i, i < k → (TraceParent tbl)^[i] x ∉ a :: q) ∧
          (∀ i, 1 ≤ i → i ≤ k → (TraceParent tbl)^[i] x ≠ -1)) ∨ x ∈ ts) →
      foldTaxa tbl pastEnd f (a :: q) ts = some (Outcome.value r) →
      ∃ f2, f ≤ f2 ∧
        (foldTaxa tbl pastEnd f2 (a :: q) (ts ++ [x]) = some (Outcome.value r) ∨
         foldTaxa tbl pastEnd f2 (a :: q) (ts ++ [x]) = some Outcome.undefined) := by
  intro ts
  induction ts with
  | nil =>
    intro a q r _ _ hJ h
    simp only [foldTaxa, deref] at h
    have e : a = r := by
      have := Option.some.inj h
      injection this
    subst e
    rcases hJ with ⟨k, hk, hmin, hne⟩ | hmem
    · refine ⟨max f (k + 1), Nat.le_max_left _ _, ?_⟩
      have hs : scan ((TraceParent tbl)^[k] x) (a :: q) = (TraceParent tbl)^[k] x :: q := by
        rw [hk]; exact scan_head a q
      have hw := walk_reaches tbl pastEnd (a :: q) q k x hpex hmin hne hs
        (max f (k + 1)) (Nat.le_max_right _ _)
      rw [hk] at hw
      simp only [List.nil_append, foldTaxa]
      rcases hw with hw | hw
      · right; rw [hw]
      · left; rw [hw]; simp [deref]
    · exact absurd hmem (List.not_mem_nil x)
  | cons t rest ih =>
    intro a q r ha hpe hJ h
    rw [foldTaxa] at h
    cases hw : walk tbl pastEnd (a :: q) f t with
    | none => rw [hw] at h; simp at h
    | some w =>
      rw [hw] at h
      cases w with
      | undefined => simp at h
      | stopped t2 it =>
        simp only at h
        cases hd : deref pastEnd (a :: q) it with
        | none => rw [hd] at h; simp at h
        | some v =>
          rw [hd] at h
          simp only at h
          by_cases hv : t2 = v
          · rw [if_pos hv] at h
            subst hv
            have hpet : ∀ l s, pastEnd l = some s → ∀ k, (TraceParent tbl)^[k] t ≠ s :=
              fun l s hl k => hpe l s hl t (List.mem_cons_self _ _) k
            obtain ⟨j, q2, hj, hit, hsc, hminj, hnej⟩ :=
              walk_stopped_match tbl pastEnd (a :: q) f t t2 it hpet hw hd
            subst hit
            have hsuf : t2 :: q2 <:+ a :: q := hsc ▸ scan_suffix t2 (a :: q)
            have hm : t2 ∈ a :: q := hsuf.subset (List.mem_cons_self _ _)
            obtain ⟨q3, hs3, ht2⟩ := TraceToRoot_scan tbl f a t2 _ ha hm
            rw [hsc] at hs3
            have e3 : q2 = q3 := List.tail_eq_of_cons_eq hs3
            subst e3
            have hpe2 : ∀ l s, pastEnd l = some s →
                ∀ y ∈ rest, ∀ k, (TraceParent tbl)^[k] y ≠ s :=
              fun l s hl y hy k => hpe l s hl y (List.mem_cons_of_mem _ hy) k
            have hJ2 : (∃ k, (TraceParent tbl)^[k] x = t2 ∧
                (∀ i, i < k → (TraceParent tbl)^[i] x ∉ t2 :: q2) ∧
                (∀ i, 1 ≤ i → i ≤ k → (TraceParent tbl)^[i] x ≠ -1)) ∨ x ∈ rest := by
              have fromT : x = t → (∃ k, (TraceParent tbl)^[k] x = t2 ∧
                  (∀ i, i < k → (TraceParent tbl)^[i] x ∉ t2 :: q2) ∧
                  (∀ i, 1 ≤ i → i ≤ k → (TraceParent tbl)^[i] x ≠ -1)) := by
                intro e
                subst e
                exact ⟨j, hj, fun i hi hmem => hminj i hi (hsuf.subset hmem), hnej⟩
              rcases hJ with ⟨k, hk, hmin, hne⟩ | hmem
              · left
                obtain ⟨d, hd2, hmin2, hne2⟩ := trace_reach_member tbl f a t2 _ ha hm
                rw [hsc] at hmin2
                refine ⟨d + k, by rw [Function.iterate_add_apply, hk, hd2], ?_, ?_⟩
                · intro i hi
                  by_cases hik : i < k
                  · exact fun hmem => hmin i hik (hsuf.subset hmem)
                  · have e : i = (i - k) + k := by omega
                    rw [e, Function.iterate_add_apply, hk]
                    exact hmin2 (i - k) (by omega)
                · intro i h1 h0
                  by_cases hik : i ≤ k
                  · exact hne i h1 hik
                  · have e : i = (i - k) + k := by omega
                    rw [e, Function.iterate_add_apply, hk]
                    exact hne2 (i - k) (by omega) (by omega)
              · rcases List.mem_cons.mp hmem with e | m
                · exact Or.inl (fromT e)
                · exact Or.inr m
            obtain ⟨f2, hle, hres⟩ := ih t2 q2 r ht2 hpe2 hJ2 h
            refine ⟨f2, hle, ?_⟩
            have hw2 := walk_mono tbl pastEnd (a :: q) f f2 t _ hle hw
            have hstep : foldTaxa tbl pastEnd f2 (a :: q) ((t :: rest) ++ [x]) =
                foldTaxa tbl pastEnd f2 (t2 :: q2) (rest ++ [x]) := by
              rw [List.cons_append, foldTaxa, hw2]
              simp only [hd, if_true]
            rw [hstep]
            exact hres
          · rw [if_neg hv] at h
            refine ⟨f, Nat.le_refl f, Or.inl ?_⟩
            rw [List.cons_append, foldTaxa, hw]
            simp only [hd, if_neg hv]
            exact h

/-- C20, counterexample. In the cycle table `GetLCA_ID` returns 5 on the list
[5] without tracing anything, and never returns on [5] ++ [5], where the trace of
5 does not end. In the example tree, under the strict reading, [100, 10] gives 10
and [100, 10] ++ [100] reads through `ancestors.end()`. -/
theorem GetLCA_ID_append_cycle :
    GetLCA_ID cycleTable strict 0 [5] = some (Outcome.value 5) ∧
    (¬ ∃ pastEnd fuel r, GetLCA_ID cycleTable pastEnd fuel ([5] ++ [5]) = some r) ∧
    GetLCA_ID specTree strict 2 [100, 10] = some (Outcome.value 10) ∧
    GetLCA_ID specTree strict 2 ([100, 10] ++ [100]) = some Outcome.undefined := by
  refine ⟨rfl, ?_, by decide, by decide⟩
  rintro ⟨pastEnd, fuel, r, h⟩
  have e : ([5] ++ [5] : List Int) = [5, 5] := rfl
  rw [e, GetLCA_ID, (TraceToRoot_cycleTable fuel).1] at h
  simp at h

/-- C20, amended. For every table, every non-empty list of identifiers on which
`GetLCA_ID` returns a value and the trace of whose first identifier returns, and
every identifier x of the list: with enough fuel `GetLCA_ID` on the list followed
by x ends, and it returns the same value unless the walk of x reads through
`ancestors.end()`. (The reading of past-the-end reads is the strict one, or any
one whose values equal no identifier on the parent chains of the listed
identifiers.) -/
theorem GetLCA_ID_append_member (tbl : TreeHashTable) (pastEnd : List Int → Option Int)
    (fuel : Nat) (first : Int) (rest : List Int) (x r : Int)
    (hx : x ∈ first :: rest)
    (hpe : ∀ l s, pastEnd l = some s →
      ∀ y ∈ first :: rest, ∀ k, (TraceParent tbl)^[k] y ≠ s)
    (htr : (TraceToRoot tbl fuel first).isSome = true)
    (h : GetLCA_ID tbl pastEnd fuel (first :: rest) = some (Outcome.value r)) :
    ∃ fuel2, fuel ≤ fuel2 ∧
      (GetLCA_ID tbl pastEnd fuel2 ((first :: rest) ++ [x]) = some (Outcome.value r) ∨
       GetLCA_ID tbl pastEnd fuel2 ((first :: rest) ++ [x]) = some Outcome.undefined) := by
  obtain ⟨anc, ht⟩ := Option.isSome_iff_exists.mp htr
  obtain ⟨q, rfl⟩ := TraceToRoot_head tbl fuel first anc ht
  match rest, hx, hpe, h with
  | [], hx, _, h =>
    have ex : x = first := by simpa using hx
    subst ex
    have er : x = r := by
      have := Option.some.inj h
      injection this
    subst er
    obtain ⟨g, rfl⟩ : ∃ g, fuel = g + 1 := by
      cases fuel with
      | zero => simp [TraceToRoot_zero] at ht
      | succ g => exact ⟨g, rfl⟩
    refine ⟨g + 1, Nat.le_refl _, Or.inl ?_⟩
    have e : ([x] ++ [x] : List Int) = [x, x] := rfl
    rw [e, GetLCA_ID, ht]
    exact foldTaxa_replicate tbl pastEnd g x q 1
  | second :: rest2, hx, hpe, h =>
    rw [GetLCA_ID, ht] at h
    simp only at h
    have hpex : ∀ l s, pastEnd l = some s → ∀ i, (TraceParent tbl)^[i] x ≠ s :=
      fun l s hl i => hpe l s hl x hx i
    have hpe2 : ∀ l s, pastEnd l = some s →
        ∀ y ∈ second :: rest2, ∀ k, (TraceParent tbl)^[k] y ≠ s :=
      fun l s hl y hy k => hpe l s hl y (List.mem_cons_of_mem _ hy) k
    have hJ : (∃ k, (TraceParent tbl)^[k] x = first ∧
        (∀ i, i < k → (TraceParent tbl)^[i] x ∉ first :: q) ∧
        (∀ i, 1 ≤ i → i ≤ k → (TraceParent tbl)^[i] x ≠ -1)) ∨ x ∈ second :: rest2 := by
      rcases List.mem_cons.mp hx with e | m
      · left
        exact ⟨0, e, fun i hi => absurd hi (Nat.not_lt_zero i),
          fun i h1 h0 => absurd (Nat.le_trans h1 h0) (by decide)⟩
      · exact Or.inr m
    obtain ⟨f2, hle, hres⟩ :=
      foldTaxa_append_member tbl pastEnd fuel x hpex (second :: rest2) first q r ht hpe2 hJ h
    refine ⟨f2, hle, ?_⟩
    have ht2 := TraceToRoot_mono tbl fuel f2 first _ hle ht
    have e : (first :: second :: rest2) ++ [x] = first :: second :: (rest2 ++ [x]) := rfl
    have e2 : (second :: rest2) ++ [x] = second :: (rest2 ++ [x]) := rfl
    rw [e, GetLCA_ID, ht2]
    rw [e2] at hres
    exact hres

/-- C20, amended, at the list [100, 101] of the example tree followed by 100,
the past-the-end reads yielding 0. -/
theorem GetLCA_ID_append_member_witness :
    GetLCA_ID specTree (sentinel 0) 2 [100, 101] = some (Outcome.value 10) ∧
    ∃ fuel2, 2 ≤ fuel2 ∧
      (GetLCA_ID specTree (sentinel 0) fuel2 ([100, 101] ++ [100]) = some (Outcome.value 10) ∨
       GetLCA_ID specTree (sentinel 0) fuel2 ([100, 101] ++ [100]) = some Outcome.undefined) :=
  ⟨by decide,
   GetLCA_ID_append_member specTree (sentinel 0) 2 100 [101] 100 10 (by decide)
      (fun _ s hs y hy k => by
        have e : s = 0 := by
          simp only [sentinel] at hs
          exact (Option.some.inj hs).symm
        rw [e]
        exact specTree_chain_ne_zero y hy k)
      (by decide) (by decide)⟩

/-! Finding the delimiters in a well-formed dump -/

theorem startsWith_append (d : List Char) : ∀ (rest : List Char), startsWith d (d ++ rest) = true := by
  induction d with
  | nil => intro rest; cases rest <;> rfl
  | cons c cs ih => intro rest; simp [startsWith, ih]

theorem findFrom_here (c : Char) (d rest : List Char) :
    findFrom (c :: d) ((c :: d) ++ rest) = some 0 := by
  have h := startsWith_append (c :: d) rest
  rw [List.cons_append] at h ⊢
  simp [findFrom, h]

/-- A text without tab is passed over by the search for a delimiter that
begins with tab. -/
theorem findFrom_skip (d : List Char) :
    ∀ (f : List Char), tab ∉ f → ∀ (rest : List Char),
      findFrom (tab :: d) (f ++ rest) =
        (findFrom (tab :: d) rest).map (fun k => k + f.length) := by
  intro f
  induction f with
  | nil => intro _ rest; simp
  | cons c cs ih =>
    intro h rest
    have hc : ¬ (tab = c) := fun e => h (e ▸ List.mem_cons_self _ _)
    have hr : tab ∉ cs := fun m => h (List.mem_cons_of_mem _ m)
    rw [List.cons_append, findFrom]
    simp only [startsWith, hc, decide_False, Bool.false_and, Bool.false_eq_true, if_false]
    rw [ih hr rest, Option.map_map]
    congr 1

theorem findFrom_none_of_no_tab (d f : List Char) (h : tab ∉ f) :
    findFrom (tab :: d) f = none := by
  have := findFrom_skip d f h []
  rw [List.append_nil] at this
  rw [this]
  rfl

/-- The text of a field followed by a delimiter: the delimiter is found right
after the field. -/
theorem findFrom_after_field (d f rest : List Char) (h : tab ∉ f) :
    findFrom (tab :: d) (f ++ ((tab :: d) ++ rest)) = some f.length := by
  rw [findFrom_skip d f h, findFrom_here]
  simp

theorem startsWith_bar_newline (g Z : List Char) (h : newline ∉ g) :
    startsWith ['|', newline] (g ++ tab :: Z) = false := by
  match g, h with
  | [], _ =>
    have hbt : ¬ ('|' = tab) := by decide
    simp [startsWith, hbt]
  | [c], _ =>
    have hnt : ¬ (newline = tab) := by decide
    simp [startsWith, hnt]
  | c :: c2 :: g2, h =>
    have hc2 : ¬ (newline = c2) :=
      fun e => h (e ▸ List.mem_cons_of_mem _ (List.mem_cons_self _ _))
    simp [startsWith, hc2]

theorem renderFields_cons_tab (g : List Char) (rest : List (List Char)) (Y : List Char) :
    ∃ Z, renderFields (g :: rest) ++ tab :: Y = g ++ tab :: Z := by
  cases rest with
  | nil => exact ⟨Y, rfl⟩
  | cons h rest2 =>
    refine ⟨'|' :: tab :: (renderFields (h :: rest2) ++ tab :: Y), ?_⟩
    simp [renderFields, fieldDelim, List.append_assoc]

/-- The text of a record followed by the row delimiter: the row delimiter is
found right after the record. -/
theorem findFrom_rowDelim_record :
    ∀ (r : List (List Char)), r ≠ [] → (∀ f ∈ r, tab ∉ f ∧ newline ∉ f) →
      ∀ (rest : List Char),
        findFrom rowDelim (renderFields r ++ (rowDelim ++ rest)) =
          some (renderFields r).length := by
  intro r
  induction r with
  | nil => intro h; exact absurd rfl h
  | cons f rs ih =>
    intro _ hplain rest
    have hf := hplain f (List.mem_cons_self _ _)
    cases rs with
    | nil =>
      simp only [renderFields]
      exact findFrom_after_field ['|', newline] f rest hf.1
    | cons g rs2 =>
      have hplain2 : ∀ f2 ∈ g :: rs2, tab ∉ f2 ∧ newline ∉ f2 :=
        fun f2 h2 => hplain f2 (List.mem_cons_of_mem _ h2)
      have ih2 := ih (List.cons_ne_nil g rs2) hplain2 rest
      obtain ⟨Z, hZ⟩ := renderFields_cons_tab g rs2 ('|' :: newline :: rest)
      have hg := hplain g (List.mem_cons_of_mem _ (List.mem_cons_self _ _))
      have hsw : startsWith ['|', newline]
          (renderFields (g :: rs2) ++ (rowDelim ++ rest)) = false := by
        have e : rowDelim ++ rest = tab :: '|' :: newline :: rest := rfl
        rw [e, hZ]
        exact startsWith_bar_newline g Z hg.2
      have e1 : renderFields (f :: g :: rs2) ++ (rowDelim ++ rest) =
          f ++ (tab :: '|' :: tab :: (renderFields (g :: rs2) ++ (rowDelim ++ rest))) := by
        simp [renderFields, fieldDelim, List.append_assoc]
      have hlen : (renderFields (f :: g :: rs2)).length =
          (renderFields (g :: rs2)).length + 3 + f.length := by
        simp [renderFields, fieldDelim]
        omega
      rw [e1, hlen]
      have e2 : rowDelim = tab :: ['|', newline] := rfl
      rw [e2, findFrom_skip ['|', newline] f hf.1]
      rw [← e2]
      have hnt : ¬ (newline = tab) := by decide
      have hbt : ¬ (tab = '|') := by decide
      have step : findFrom rowDelim
          (tab :: '|' :: tab :: (renderFields (g :: rs2) ++ (rowDelim ++ rest))) =
          some ((renderFields (g :: rs2)).length + 3) := by
        rw [findFrom]
        have s1 : startsWith rowDelim
            (tab :: '|' :: tab :: (renderFields (g :: rs2) ++ (rowDelim ++ rest))) = false := by
          simp [rowDelim, startsWith, hnt]
        rw [s1]
        simp only [Bool.false_eq_true, if_false]
        rw [findFrom]
        have s2 : startsWith rowDelim
            ('|' :: tab :: (renderFields (g :: rs2) ++ (rowDelim ++ rest))) = false := by
          simp [rowDelim, startsWith, hbt]
        rw [s2]
        simp only [Bool.false_eq_true, if_false]
        rw [findFrom]
        have s3 : startsWith rowDelim
            (tab :: (renderFields (g :: rs2) ++ (rowDelim ++ rest))) = false := by
          have : startsWith rowDelim
              (tab :: (renderFields (g :: rs2) ++ (rowDelim ++ rest))) =
              startsWith ['|', newline] (renderFields (g :: rs2) ++ (rowDelim ++ rest)) := by
            simp [rowDelim, startsWith]
          rw [this, hsw]
        rw [s3]
        simp only [Bool.false_eq_true, if_false]
        rw [ih2]
        simp
      rw [step]
      simp

/-! Splitting a well-formed record and converting its numbers -/

theorem strFind_append (pre X d : List Char) :
    strFind (pre ++ X) d pre.length = (findFrom d X).map (fun k => k + pre.length) := by
  simp [strFind]

theorem length_le_renderFields :
    ∀ (r : List (List Char)), r.length ≤ (renderFields r).length + 1 := by
  intro r
  induction r with
  | nil => simp
  | cons f rs ih =>
    cases rs with
    | nil => simp
    | cons g rs2 =>
      simp only [renderFields, List.length_append, List.length_cons] at ih ⊢
      simp only [fieldDelim, List.length_cons, List.length_nil]
      omega

theorem length_le_renderDump :
    ∀ (rows : List (List (List Char))), rows.length ≤ (renderDump rows).length := by
  intro rows
  induction rows with
  | nil => simp
  | cons r rs ih =>
    simp only [renderDump, List.length_append, List.length_cons]
    simp only [rowDelim, List.length_cons, List.length_nil]
    omega

/-- The inner loop of `LoadData` on the text of a record gives back its fields. -/
theorem splitFields_renderFields :
    ∀ (r : List (List Char)), r ≠ [] → (∀ f ∈ r, tab ∉ f) →
      ∀ (pre : List Char) (acc : List (List Char)) (fuel : Nat), r.length ≤ fuel →
        splitFields (pre ++ renderFields r) fuel pre.length acc = some (acc ++ r) := by
  intro r
  induction r with
  | nil => intro h; exact absurd rfl h
  | cons f rs ih =>
    intro _ hplain pre acc fuel hfuel
    have hf := hplain f (List.mem_cons_self _ _)
    obtain ⟨n, rfl⟩ : ∃ n, fuel = n + 1 := ⟨fuel - 1, by simp at hfuel; omega⟩
    cases rs with
    | nil =>
      simp only [renderFields, splitFields]
      rw [strFind_append, fieldDelim, findFrom_none_of_no_tab _ f hf]
      simp
    | cons g rs2 =>
      have hplain2 : ∀ f2 ∈ g :: rs2, tab ∉ f2 :=
        fun f2 h2 => hplain f2 (List.mem_cons_of_mem _ h2)
      have e1 : renderFields (f :: g :: rs2) = f ++ (fieldDelim ++ renderFields (g :: rs2)) := rfl
      rw [splitFields, strFind_append, e1]
      have hfind : findFrom fieldDelim (f ++ (fieldDelim ++ renderFields (g :: rs2))) =
          some f.length := findFrom_after_field ['|', tab] f _ hf
      rw [hfind]
      simp only [Option.map_some']
      have hsub : substr (pre ++ (f ++ (fieldDelim ++ renderFields (g :: rs2)))) pre.length
          (f.length + pre.length - pre.length) = f := by
        simp [substr]
      rw [hsub]
      have e2 : pre ++ (f ++ (fieldDelim ++ renderFields (g :: rs2))) =
          (pre ++ (f ++ fieldDelim)) ++ renderFields (g :: rs2) := by
        simp [List.append_assoc]
      have e3 : f.length + pre.length + fieldDelim.length = (pre ++ (f ++ fieldDelim)).length := by
        simp only [List.length_append]
        omega
      rw [e2, e3, ih (List.cons_ne_nil g rs2) hplain2 _ _ n (by simp at hfuel ⊢; omega)]
      simp

theorem isdigit_facts (c : Char) (h : isdigit c = true) :
    isspace c = false ∧ c ≠ '-' ∧ c ≠ '+' := by
  simp only [isdigit, Bool.and_eq_true, decide_eq_true_eq] at h
  refine ⟨?_, ?_, ?_⟩
  · simp only [isspace, Bool.or_eq_false_iff, decide_eq_false_iff_not, Bool.and_eq_false_imp,
      decide_eq_true_eq]
    refine ⟨?_, ?_⟩
    · intro e
      subst e
      have : (' ' : Char).toNat = 32 := rfl
      omega
    · intro _
      omega
  · intro e
    subst e
    have : ('-' : Char).toNat = 45 := rfl
    omega
  · intro e
    subst e
    have : ('+' : Char).toNat = 43 := rfl
    omega

theorem digitsValue_digits :
    ∀ (s : List Char), (∀ c ∈ s, isdigit c = true) → ∀ acc,
      digitsValue acc s = s.foldl (fun a c => a * 10 + (c.toNat - 48)) acc := by
  intro s
  induction s with
  | nil => intro _ acc; rfl
  | cons c cs ih =>
    intro h acc
    have hc := h c (List.mem_cons_self _ _)
    simp only [digitsValue, hc, if_true, List.foldl_cons]
    exact ih (fun c2 h2 => h c2 (List.mem_cons_of_mem _ h2)) _

/-- On a text of decimal digits whose value fits an `int`, `atoi` gives that
value. -/
theorem atoi_decimal (s : List Char) (h : isDecimal s) :
    atoi s = some (decimalValue s : Int) := by
  obtain ⟨hne, hdig, hle⟩ := h
  match s, hne, hdig, hle with
  | c :: cs, _, hdig, hle =>
    obtain ⟨h1, h2, h3⟩ := isdigit_facts c (hdig c (List.mem_cons_self _ _))
    have hv : digitsValue 0 (c :: cs) = decimalValue (c :: cs) :=
      digitsValue_digits (c :: cs) hdig 0
    have hdrop : List.dropWhile isspace (c :: cs) = c :: cs := by
      simp [List.dropWhile, h1]
    simp only [atoi, hdrop, List.head?_cons, Option.some.injEq, h2, h3, if_false, hv]
    rw [if_pos]
    constructor
    · omega
    · exact_mod_cast hle

/-! Loading a well-formed dump -/

/-- The constructor on a well-formed record, and the key `LoadData` inserts
it under. -/
theorem TaxonNode_wellFormed (r : List (List Char)) (h : wellFormedRecord r) :
    ∃ node, TaxonNode.TaxonNode r = some node ∧ node.parentID = recordParent r ∧
      (r[0]? >>= atoi) = some (recordKey r) := by
  obtain ⟨hlen, _, h0, h1, hnum⟩ := h
  have a0 := atoi_decimal _ h0
  have a1 := atoi_decimal _ h1
  obtain ⟨v4, e4⟩ := Option.isSome_iff_exists.mp (hnum 4 (by simp))
  obtain ⟨v5, e5⟩ := Option.isSome_iff_exists.mp (hnum 5 (by simp))
  obtain ⟨v6, e6⟩ := Option.isSome_iff_exists.mp (hnum 6 (by simp))
  obtain ⟨v7, e7⟩ := Option.isSome_iff_exists.mp (hnum 7 (by simp))
  obtain ⟨v8, e8⟩ := Option.isSome_iff_exists.mp (hnum 8 (by simp))
  obtain ⟨v9, e9⟩ := Option.isSome_iff_exists.mp (hnum 9 (by simp))
  obtain ⟨v10, e10⟩ := Option.isSome_iff_exists.mp (hnum 10 (by simp))
  obtain ⟨v11, e11⟩ := Option.isSome_iff_exists.mp (hnum 11 (by simp))
  have hlt : ¬ (r.length < 13) := by omega
  refine ⟨TaxonNode.mk (decimalValue (r.getD 0 [])) (decimalValue (r.getD 1 []))
    (c_str (r.getD 2 [])) (c_str (r.getD 3 [])) v4 (decide (v5 ≠ 0)) v6 (decide (v7 ≠ 0)) v8
    (decide (v9 ≠ 0)) (decide (v10 ≠ 0)) (decide (v11 ≠ 0)) (c_str (r.getD 12 [])), ?_, ?_, ?_⟩
  · simp only [TaxonNode.TaxonNode, hlt, if_false, a0, a1, e4, e5, e6, e7, e8, e9, e10, e11,
      Option.some_bind]
  · rfl
  · match r, hlen, a0 with
    | f0 :: rest, _, a0 =>
      simp only [List.getD_cons_zero] at a0
      simp only [List.getElem?_cons_zero, Option.some_bind, Option.bind_eq_bind, a0]
      rfl

theorem find_append (t1 t2 : TreeHashTable) (k : Int) :
    find (t1 ++ t2) k = (find t1 k).or (find t2 k) := by
  simp only [find, List.lookup_append]

theorem find_insert (tbl : TreeHashTable) (k : Int) (node : TaxonNode) (k2 : Int) :
    find (insert tbl k node) k2 =
      (find tbl k2).or (if k2 = k then some node else none) := by
  unfold insert
  cases hf : find tbl k with
  | some n0 =>
    simp only
    by_cases e : k2 = k
    · subst e
      rw [hf]
      rfl
    · rw [if_neg e, Option.or_none]
  | none =>
    simp only
    rw [find_append]
    congr 1
    by_cases e : k2 = k
    · subst e
      simp [find]
    · have b : (k2 == k) = false := by simpa using e
      simp [find, List.lookup, b, e]

/-- The outer loop of `LoadData` on the text of well-formed records: it returns,
and a key is then bound to what it was bound to before, or else to the node of
the first record of the dump with that taxon id. -/
theorem loadRows_wellFormed :
    ∀ (rows : List (List (List Char))), (∀ r ∈ rows, wellFormedRecord r) →
      ∀ (pre : List Char) (tbl : TreeHashTable) (fuel : Nat), rows.length + 1 ≤ fuel →
        ∃ tbl2, loadRows (pre ++ renderDump rows) fuel pre.length tbl =
            some (LoadEnd.returned tbl2) ∧
          ∀ k, find tbl2 k =
            (find tbl k).or ((firstRecord rows k).bind TaxonNode.TaxonNode) := by
  intro rows
  induction rows with
  | nil =>
    intro _ pre tbl fuel hfuel
    obtain ⟨n, rfl⟩ : ∃ n, fuel = n + 1 := ⟨fuel - 1, by omega⟩
    refine ⟨tbl, ?_, ?_⟩
    · simp only [renderDump, loadRows]
      rw [strFind_append]
      have : findFrom rowDelim [] = none := rfl
      rw [this]
      rfl
    · intro k
      simp [firstRecord]
  | cons r rs ih =>
    intro hwf pre tbl fuel hfuel
    obtain ⟨n, rfl⟩ : ∃ n, fuel = n + 1 := ⟨fuel - 1, by omega⟩
    have hr := hwf r (List.mem_cons_self _ _)
    have hrs : ∀ r2 ∈ rs, wellFormedRecord r2 := fun r2 h2 => hwf r2 (List.mem_cons_of_mem _ h2)
    have hne : r ≠ [] := by
      intro e
      have := hr.1
      rw [e] at this
      simp at this
    obtain ⟨node, hnode, _, hkey⟩ := TaxonNode_wellFormed r hr
    have hfind := findFrom_rowDelim_record r hne hr.2.1 (renderDump rs)
    have hsplit := splitFields_renderFields r hne (fun f hf => (hr.2.1 f hf).1) [] []
      ((renderFields r).length + 1) (length_le_renderFields r)
    simp only [List.nil_append, List.length_nil] at hsplit
    have e2 : pre ++ (renderFields r ++ (rowDelim ++ renderDump rs)) =
        (pre ++ (renderFields r ++ rowDelim)) ++ renderDump rs := by
      simp [List.append_assoc]
    have e3 : (renderFields r).length + pre.length + rowDelim.length =
        (pre ++ (renderFields r ++ rowDelim)).length := by
      simp only [List.length_append]
      omega
    obtain ⟨tbl2, hload, hfindk⟩ :=
      ih hrs (pre ++ (renderFields r ++ rowDelim)) (insert tbl (recordKey r) node) n
        (by simp at hfuel ⊢; omega)
    refine ⟨tbl2, ?_, ?_⟩
    · have hsub : substr (pre ++ (renderFields r ++ (rowDelim ++ renderDump rs))) pre.length
          ((renderFields r).length + pre.length - pre.length) = renderFields r := by
        simp [substr]
      simp only [renderDump, loadRows]
      rw [strFind_append, hfind]
      simp only [Option.map_some']
      rw [hsub, hsplit]
      simp only [hkey, hnode]
      rw [e2, e3]
      exact hload
    · intro k
      rw [hfindk k, find_insert]
      by_cases e : k = recordKey r
      · subst e
        simp [firstRecord, hnode, Option.or_assoc]
      · have e4 : ¬ (recordKey r = k) := fun h => e h.symm
        simp [firstRecord, e, e4, Option.or_none]

theorem firstRecord_of_nodup :
    ∀ (rows : List (List (List Char))), (rows.map recordKey).Nodup →
      ∀ r ∈ rows, firstRecord rows (recordKey r) = some r := by
  intro rows
  induction rows with
  | nil => intro _ r hr; simp at hr
  | cons r0 rs ih =>
    intro hnd r hr
    rw [List.map_cons, List.nodup_cons] at hnd
    rcases List.mem_cons.mp hr with e | m
    · subst e
      simp [firstRecord]
    · have hne : recordKey r0 ≠ recordKey r := by
        intro e
        exact hnd.1 (e ▸ List.mem_map_of_mem recordKey m)
      have := ih hnd.2 r m
      simp only [firstRecord] at this ⊢
      rw [List.find?_cons]
      simp [hne, this]

/-- C13. For every dump text made of well-formed records (13 fields without tab
or newline, separated by the field delimiter, each record followed by the row
delimiter, taxon id and parent id decimal integers that fit an `int`, the other
numeric fields convertible) with pairwise distinct taxon ids, `LoadData` into the
empty table returns; the table then has a record for exactly the taxon ids of the
dump, and the parentID stored for each record, hence `TraceParent` of its taxon
id, is the value of its second field. -/
theorem LoadData_roundtrip (fs : FileSystem) (nodesDumpFile : List Char)
    (rows : List (List (List Char)))
    (hfs : fs nodesDumpFile = some (renderDump rows))
    (hwf : ∀ r ∈ rows, wellFormedRecord r)
    (hnd : (rows.map recordKey).Nodup) :
    ∃ tbl, LoadData fs nodesDumpFile [] = some (LoadEnd.returned tbl) ∧
      (∀ k, (find tbl k).isSome = true ↔ ∃ r ∈ rows, recordKey r = k) ∧
      (∀ r ∈ rows,
        (find tbl (recordKey r)).map TaxonNode.parentID = some (recordParent r) ∧
        TraceParent tbl (recordKey r) = recordParent r) := by
  obtain ⟨tbl, hload, hfind⟩ := loadRows_wellFormed rows hwf [] []
    ((renderDump rows).length + 1) (by have := length_le_renderDump rows; omega)
  simp only [List.nil_append, List.length_nil] at hload
  have hfind2 : ∀ k, find tbl k = (firstRecord rows k).bind TaxonNode.TaxonNode := by
    intro k
    rw [hfind k]
    rfl
  refine ⟨tbl, ?_, ?_, ?_⟩
  · simp only [LoadData, ReadFile, hfs]
    exact hload
  · intro k
    rw [hfind2 k]
    constructor
    · intro h
      cases hf : firstRecord rows k with
      | none => rw [hf] at h; simp at h
      | some r =>
        simp only [firstRecord] at hf
        have hm := List.mem_of_find?_eq_some hf
        have hk := List.find?_some hf
        exact ⟨r, hm, by simpa using hk⟩
    · rintro ⟨r, hr, rfl⟩
      rw [firstRecord_of_nodup rows hnd r hr]
      obtain ⟨node, hnode, _, _⟩ := TaxonNode_wellFormed r (hwf r hr)
      simp [hnode]
  · intro r hr
    obtain ⟨node, hnode, hpar, _⟩ := TaxonNode_wellFormed r (hwf r hr)
    have hf : find tbl (recordKey r) = some node := by
      rw [hfind2, firstRecord_of_nodup rows hnd r hr]
      simpa using hnode
    refine ⟨by rw [hf]; simp [hpar], ?_⟩
    simp only [TraceParent, hf]
    exact hpar


/-- C13 at the dump of the two records 5 (parent 6) and 7 (parent 5). -/
theorem LoadData_roundtrip_witness :
    (∀ r ∈ [recordFields "5".toList "6".toList, recordFields "7".toList "5".toList],
      wellFormedRecord r) ∧
    ∃ tbl, LoadData
        (oneFile "nodes.dmp".toList
          (renderDump [recordFields "5".toList "6".toList, recordFields "7".toList "5".toList]))
        "nodes.dmp".toList [] = some (LoadEnd.returned tbl) ∧
      TraceParent tbl 5 = 6 ∧ TraceParent tbl 7 = 5 := by
  have hwf : ∀ r ∈ [recordFields "5".toList "6".toList, recordFields "7".toList "5".toList],
      wellFormedRecord r := by decide
  refine ⟨hwf, ?_⟩
  obtain ⟨tbl, hload, _, hpar⟩ := LoadData_roundtrip
    (oneFile "nodes.dmp".toList
      (renderDump [recordFields "5".toList "6".toList, recordFields "7".toList "5".toList]))
    "nodes.dmp".toList
    [recordFields "5".toList "6".toList, recordFields "7".toList "5".toList]
    (by simp [oneFile]) hwf (by decide)
  refine ⟨tbl, hload, ?_, ?_⟩
  · exact (hpar (recordFields "5".toList "6".toList) (by simp)).2
  · exact (hpar (recordFields "7".toList "5".toList) (by simp)).2

/-- C14, counterexample. Dump "a" holds the records 5 (parent 6) and 8 (parent
9), dump "b" holds the record 5 (parent 7). After `LoadData("a")` followed by
`LoadData("b")` the table still gives 5 the parent 6 and still has 8, while
loading "b" alone gives 5 the parent 7 and has no record of 8. -/
theorem LoadData_reload_keeps :
    ((tableAfter twoDumps "a".toList []).bind (fun t => tableAfter twoDumps "b".toList t)).map
        (fun t => (TraceParent t 5, TraceParent t 8)) = some (6, 9) ∧
    (tableAfter twoDumps "b".toList []).map
        (fun t => (TraceParent t 5, TraceParent t 8)) = some (7, -1) := by
  constructor <;> decide

/-- C14, amended. For all dumps A and B made of well-formed records, each
load from a dump file returns, and after `LoadData(A)` followed by `LoadData(B)`
a taxon id is bound to the record it has after loading A alone, or else, when A
has none, to the record it has after loading B alone: nothing of A is dropped,
and an id that occurs in both keeps the parentID of A. Loading from a table
(`LoadData(std::map&)`) does replace the contents. -/
theorem LoadData_additive (fs : FileSystem) (dumpA dumpB : List Char)
    (rowsA rowsB : List (List (List Char)))
    (hA : fs dumpA = some (renderDump rowsA)) (hB : fs dumpB = some (renderDump rowsB))
    (hwfA : ∀ r ∈ rowsA, wellFormedRecord r) (hwfB : ∀ r ∈ rowsB, wellFormedRecord r) :
    ∃ tblA tblB tblAB,
      LoadData fs dumpA [] = some (LoadEnd.returned tblA) ∧
      LoadData fs dumpB [] = some (LoadEnd.returned tblB) ∧
      LoadData fs dumpB tblA = some (LoadEnd.returned tblAB) ∧
      (∀ k, find tblAB k = (find tblA k).or (find tblB k)) ∧
      (∀ k, TraceParent tblAB k =
        if (find tblA k).isSome = true then TraceParent tblA k else TraceParent tblB k) ∧
      LoadDataTable tblA tblB = tblB := by
  obtain ⟨tblA, hloadA, _⟩ := loadRows_wellFormed rowsA hwfA [] []
    ((renderDump rowsA).length + 1) (by have := length_le_renderDump rowsA; omega)
  obtain ⟨tblB, hloadB, hfindB⟩ := loadRows_wellFormed rowsB hwfB [] []
    ((renderDump rowsB).length + 1) (by have := length_le_renderDump rowsB; omega)
  obtain ⟨tblAB, hloadAB, hfindAB⟩ := loadRows_wellFormed rowsB hwfB [] tblA
    ((renderDump rowsB).length + 1) (by have := length_le_renderDump rowsB; omega)
  simp only [List.nil_append, List.length_nil] at hloadA hloadB hloadAB
  have hfind : ∀ k, find tblAB k = (find tblA k).or (find tblB k) := by
    intro k
    rw [hfindAB k, hfindB k]
    rfl
  refine ⟨tblA, tblB, tblAB, ?_, ?_, ?_, hfind, ?_, rfl⟩
  · simp only [LoadData, ReadFile, hA]
    exact hloadA
  · simp only [LoadData, ReadFile, hB]
    exact hloadB
  · simp only [LoadData, ReadFile, hB]
    exact hloadAB
  · intro k
    simp only [TraceParent, hfind k]
    cases find tblA k with
    | none => simp
    | some n => simp

/-- C14, amended, at the dumps "a" (records 5 with parent 6, 8 with parent 9)
and "b" (record 5 with parent 7). -/
theorem LoadData_additive_witness :
    (∀ r ∈ [recordFields "5".toList "6".toList, recordFields "8".toList "9".toList],
      wellFormedRecord r) ∧
    (∀ r ∈ [recordFields "5".toList "7".toList], wellFormedRecord r) ∧
    ∃ tblA tblB tblAB,
      LoadData twoDumps "a".toList [] = some (LoadEnd.returned tblA) ∧
      LoadData twoDumps "b".toList [] = some (LoadEnd.returned tblB) ∧
      LoadData twoDumps "b".toList tblA = some (LoadEnd.returned tblAB) ∧
      (∀ k, find tblAB k = (find tblA k).or (find tblB k)) := by
  have hwfA : ∀ r ∈ [recordFields "5".toList "6".toList, recordFields "8".toList "9".toList],
      wellFormedRecord r := by decide
  have hwfB : ∀ r ∈ [recordFields "5".toList "7".toList], wellFormedRecord r := by decide
  refine ⟨hwfA, hwfB, ?_⟩
  obtain ⟨tblA, tblB, tblAB, h1, h2, h3, h4, _, _⟩ :=
    LoadData_additive twoDumps "a".toList "b".toList
      [recordFields "5".toList "6".toList, recordFields "8".toList "9".toList]
      [recordFields "5".toList "7".toList] (by decide) (by decide) hwfA hwfB
  exact ⟨tblA, tblB, tblAB, h1, h2, h3, h4⟩

/-! The shape of a trace -/

theorem TraceToRoot_shape_all (tbl : TreeHashTable) :
    ∀ (f : Nat) (t : Int) (p : List Int), TraceToRoot tbl f t = some p →
      p.head? = some t ∧
      List.Chain' (fun a b => b = TraceParent tbl a) p ∧
      (∀ x ∈ p.tail, x ≠ -1 ∧ x ≠ 1) ∧
      (∀ hne : p ≠ [], TraceParent tbl (p.getLast hne) = -1 ∨
        TraceParent tbl (p.getLast hne) = 1) := by
  intro f
  induction f with
  | zero => intro t p h; simp [TraceToRoot_zero] at h
  | succ f ih =>
    intro t p h
    rw [TraceToRoot_succ] at h
    by_cases hc : TraceParent tbl t ≠ -1 ∧ TraceParent tbl t ≠ 1
    · rw [if_pos hc, Option.map_eq_some'] at h
      obtain ⟨p2, hp2, rfl⟩ := h
      obtain ⟨hhead, hchain, htail, hlast⟩ := ih _ p2 hp2
      obtain ⟨q, rfl⟩ := TraceToRoot_head tbl f _ p2 hp2
      refine ⟨rfl, ?_, ?_, ?_⟩
      · exact List.Chain'.cons rfl hchain
      · intro x hx
        simp only [List.tail_cons] at hx htail
        rcases List.mem_cons.mp hx with e | m
        · rw [e]; exact hc
        · exact htail x m
      · intro hne
        have e : (t :: TraceParent tbl t :: q).getLast hne =
            (TraceParent tbl t :: q).getLast (List.cons_ne_nil _ _) := by
          simp [List.getLast_cons]
        rw [e]
        exact hlast (List.cons_ne_nil _ _)
    · rw [if_neg hc] at h
      have e : p = [t] := (Option.some.inj h).symm
      subst e
      refine ⟨rfl, List.chain'_singleton t, ?_, ?_⟩
      · intro x hx
        simp at hx
      · intro _
        simp only [List.getLast_singleton]
        by_contra hn
        exact hc ⟨fun e => hn (Or.inl e), fun e => hn (Or.inr e)⟩

/-- C24. For every table and identifier t on which `TraceToRoot` returns, the
returned list is non-empty, its first element is t, every element after the first
is `TraceParent` of the element before it, no element after the first is -1 or 1,
and `TraceParent` of the last element is -1 or 1. -/
theorem TraceToRoot_shape (tbl : TreeHashTable) (fuel : Nat) (t : Int) (p : List Int)
    (h : TraceToRoot tbl fuel t = some p) :
    p ≠ [] ∧ p.head? = some t ∧
    List.Chain' (fun a b => b = TraceParent tbl a) p ∧
    (∀ x ∈ p.tail, x ≠ -1 ∧ x ≠ 1) ∧
    (∀ hne : p ≠ [], TraceParent tbl (p.getLast hne) = -1 ∨
      TraceParent tbl (p.getLast hne) = 1) := by
  obtain ⟨h1, h2, h3, h4⟩ := TraceToRoot_shape_all tbl fuel t p h
  refine ⟨?_, h1, h2, h3, h4⟩
  intro e
  rw [e] at h1
  simp at h1

/-- C24 at the identifier 100 of the example tree. -/
theorem TraceToRoot_shape_witness :
    TraceToRoot specTree 2 100 = some [100, 10] ∧
    List.Chain' (fun a b => b = TraceParent specTree a) [100, 10] ∧
    (∀ x ∈ [(100 : Int), 10].tail, x ≠ -1 ∧ x ≠ 1) :=
  ⟨by decide, (TraceToRoot_shape specTree 2 100 [100, 10] (by decide)).2.2.1,
   (TraceToRoot_shape specTree 2 100 [100, 10] (by decide)).2.2.2.1⟩

/-! Reads through `ancestors.end()` -/

/-- C23, the code at the failing input. In the example tree, on [100, 101], the
ancestors are [100, 10]; the scan for 101 ends at `ancestors.end()` and line 38
reads `*ancestorIter` there: under the strict reading the call is undefined. In
every table, the first pass of the walk of an identifier that is not among the
ancestors makes that read. -/
theorem GetLCA_ID_reads_past_end :
    TraceToRoot specTree 2 100 = some [100, 10] ∧
    scan 101 [100, 10] = [] ∧
    deref strict [100, 10] (scan 101 [100, 10]) = none ∧
    GetLCA_ID specTree strict 2 [100, 101] = some Outcome.undefined ∧
    (∀ (tbl : TreeHashTable) (anc : List Int) (t : Int) (fuel : Nat),
      t ∈ anc ∨ walk tbl strict anc (fuel + 1) t = some WalkEnd.undefined) := by
  refine ⟨by decide, by decide, by decide, by decide, ?_⟩
  intro tbl anc t fuel
  by_cases h : t ∈ anc
  · exact Or.inl h
  · right
    rw [walk_succ, scan_of_not_mem t anc h]
    rfl

/-! Records with a taxon id that is already bound -/

/-- C25. For every dump made of well-formed records (taxon ids may repeat) and
every table, `LoadData` returns; a taxon id that the table already had keeps its
record, and a taxon id that it did not have is bound to the first record of the
dump with that id: `TraceParent` gives the parentID of the earliest record. -/
theorem LoadData_first_record (fs : FileSystem) (nodesDumpFile : List Char)
    (rows : List (List (List Char))) (tbl : TreeHashTable)
    (hfs : fs nodesDumpFile = some (renderDump rows))
    (hwf : ∀ r ∈ rows, wellFormedRecord r) :
    ∃ tbl2, LoadData fs nodesDumpFile tbl = some (LoadEnd.returned tbl2) ∧
      (∀ k node, find tbl k = some node →
        find tbl2 k = some node ∧ TraceParent tbl2 k = node.parentID) ∧
      (∀ k r, find tbl k = none → firstRecord rows k = some r →
        TraceParent tbl2 k = recordParent r) ∧
      (∀ k, find tbl k = none → firstRecord rows k = none → find tbl2 k = none) := by
  obtain ⟨tbl2, hload, hfind⟩ := loadRows_wellFormed rows hwf [] tbl
    ((renderDump rows).length + 1) (by have := length_le_renderDump rows; omega)
  simp only [List.nil_append, List.length_nil] at hload
  refine ⟨tbl2, ?_, ?_, ?_, ?_⟩
  · simp only [LoadData, ReadFile, hfs]
    exact hload
  · intro k node hk
    have h2 : find tbl2 k = some node := by rw [hfind k, hk]; rfl
    exact ⟨h2, by simp only [TraceParent, h2]⟩
  · intro k r hk hr
    have hm : r ∈ rows := List.mem_of_find?_eq_some hr
    obtain ⟨node, hnode, hpar, _⟩ := TaxonNode_wellFormed r (hwf r hm)
    have h2 : find tbl2 k = some node := by
      rw [hfind k, hk, hr]
      simpa using hnode
    simp only [TraceParent, h2]
    exact hpar
  · intro k hk hr
    rw [hfind k, hk, hr]
    rfl

/-- C25 at the dump of the records 5 (parent 6), 5 (parent 7), loaded into the
empty table. -/
theorem LoadData_first_record_witness :
    (∀ r ∈ [recordFields "5".toList "6".toList, recordFields "5".toList "7".toList],
      wellFormedRecord r) ∧
    firstRecord [recordFields "5".toList "6".toList, recordFields "5".toList "7".toList] 5 =
      some (recordFields "5".toList "6".toList) ∧
    ∃ tbl2, LoadData
        (oneFile "nodes.dmp".toList
          (renderDump [recordFields "5".toList "6".toList, recordFields "5".toList "7".toList]))
        "nodes.dmp".toList [] = some (LoadEnd.returned tbl2) ∧
      TraceParent tbl2 5 = 6 := by
  have hwf : ∀ r ∈ [recordFields "5".toList "6".toList, recordFields "5".toList "7".toList],
      wellFormedRecord r := by decide
  have hfirst : firstRecord
      [recordFields "5".toList "6".toList, recordFields "5".toList "7".toList] 5 =
      some (recordFields "5".toList "6".toList) := by decide
  refine ⟨hwf, hfirst, ?_⟩
  obtain ⟨tbl2, hload, _, hpar, _⟩ := LoadData_first_record
    (oneFile "nodes.dmp".toList
      (renderDump [recordFields "5".toList "6".toList, recordFields "5".toList "7".toList]))
    "nodes.dmp".toList
    [recordFields "5".toList "6".toList, recordFields "5".toList "7".toList] []
    (by simp [oneFile]) hwf
  exact ⟨tbl2, hload, hpar 5 _ rfl hfirst⟩

/-! The frontier -/

/-- The loop over the identifiers is the iteration of its pass. -/
theorem foldTaxa_cons_forBody (tbl : TreeHashTable) (pastEnd : List Int → Option Int)
    (fuel : Nat) (anc : List Int) (t : Int) (rest : List Int) :
    foldTaxa tbl pastEnd fuel anc (t :: rest) =
      match forBody tbl pastEnd fuel anc t with
      | none => none
      | some (StepEnd.next anc2) => foldTaxa tbl pastEnd fuel anc2 rest
      | some (StepEnd.returned v) => some (Outcome.value v)
      | some StepEnd.undefined => some Outcome.undefined := by
  rw [foldTaxa, forBody]
  cases hw : walk tbl pastEnd anc fuel t with
  | none => rfl
  | some w =>
    cases w with
    | undefined => rfl
    | stopped t2 it =>
      simp only
      cases hd : deref pastEnd anc it with
      | none => rfl
      | some v =>
        simp only
        by_cases hv : t2 = v
        · simp only [if_pos hv]
        · simp only [if_neg hv]

/-- A pass that ends with the erase leaves a non-empty suffix of the ancestor
list, when no past-the-end value equals an identifier of the walk. -/
theorem forBody_next_suffix (tbl : TreeHashTable) (pastEnd : List Int → Option Int)
    (fuel : Nat) (anc anc2 : List Int) (t : Int)
    (hpe : ∀ l s, pastEnd l = some s → ∀ k, (TraceParent tbl)^[k] t ≠ s)
    (h : forBody tbl pastEnd fuel anc t = some (StepEnd.next anc2)) :
    anc2 ≠ [] ∧ anc2 <:+ anc := by
  rw [forBody] at h
  cases hw : walk tbl pastEnd anc fuel t with
  | none => rw [hw] at h; simp at h
  | some w =>
    rw [hw] at h
    cases w with
    | undefined => simp at h
    | stopped t2 it =>
      simp only at h
      cases hd : deref pastEnd anc it with
      | none => rw [hd] at h; simp at h
      | some v =>
        rw [hd] at h
        simp only at h
        by_cases hv : t2 = v
        · rw [if_pos hv] at h
          subst hv
          have e : it = anc2 := by
            have := Option.some.inj h
            injection this
          subst e
          obtain ⟨j, q, _, hit, hsc, _, _⟩ :=
            walk_stopped_match tbl pastEnd anc fuel t t2 it hpe hw hd
          subst hit
          exact ⟨List.cons_ne_nil _ _, hsc ▸ scan_suffix t2 anc⟩
        · rw [if_neg hv] at h
          simp at h

/-- After any number of passes the ancestor list is a non-empty suffix of the
list the loop started with. -/
theorem frontierAfter_suffix (tbl : TreeHashTable) (pastEnd : List Int → Option Int)
    (fuel : Nat) :
    ∀ (done anc F : List Int), anc ≠ [] →
      (∀ l s, pastEnd l = some s → ∀ x ∈ done, ∀ k, (TraceParent tbl)^[k] x ≠ s) →
      frontierAfter tbl pastEnd fuel anc done = some F → F ≠ [] ∧ F <:+ anc := by
  intro done
  induction done with
  | nil =>
    intro anc F hne _ h
    have e : anc = F := by
      simp only [frontierAfter] at h
      exact Option.some.inj h
    subst e
    exact ⟨hne, List.suffix_refl _⟩
  | cons t rest ih =>
    intro anc F _ hpe h
    rw [frontierAfter] at h
    cases hb : forBody tbl pastEnd fuel anc t with
    | none => rw [hb] at h; simp at h
    | some e =>
      rw [hb] at h
      cases e with
      | returned v => simp at h
      | undefined => simp at h
      | next anc2 =>
        simp only at h
        obtain ⟨hne2, hsuf2⟩ := forBody_next_suffix tbl pastEnd fuel anc anc2 t
          (fun l s hl k => hpe l s hl t (List.mem_cons_self _ _) k) hb
        obtain ⟨hF, hsuf⟩ := ih anc2 F hne2
          (fun l s hl x hx k => hpe l s hl x (List.mem_cons_of_mem _ hx) k) h
        exact ⟨hF, List.IsSuffix.trans hsuf hsuf2⟩

/-- A value returned by the loop is the -1 of line 45, or the front of the
ancestor list left by the passes for all identifiers. -/
theorem foldTaxa_value_front (tbl : TreeHashTable) (pastEnd : List Int → Option Int)
    (fuel : Nat) :
    ∀ (ts anc : List Int) (r : Int), anc ≠ [] →
      (∀ l s, pastEnd l = some s → ∀ x ∈ ts, ∀ k, (TraceParent tbl)^[k] x ≠ s) →
      foldTaxa tbl pastEnd fuel anc ts = some (Outcome.value r) →
      r = -1 ∨ ∃ F, frontierAfter tbl pastEnd fuel anc ts = some F ∧ F.head? = some r := by
  intro ts
  induction ts with
  | nil =>
    intro anc r hne _ h
    right
    match anc, hne, h with
    | a :: q, _, h =>
      simp only [foldTaxa, deref] at h
      have e : a = r := by
        have := Option.some.inj h
        injection this
      exact ⟨a :: q, rfl, by rw [e]; rfl⟩
  | cons t rest ih =>
    intro anc r _ hpe h
    rw [foldTaxa_cons_forBody] at h
    rw [frontierAfter]
    cases hb : forBody tbl pastEnd fuel anc t with
    | none => rw [hb] at h; simp at h
    | some e =>
      rw [hb] at h
      cases e with
      | undefined => simp at h
      | returned v =>
        left
        simp only at h
        have hv : v = r := by
          have := Option.some.inj h
          injection this
        rw [← hv]
        rw [forBody] at hb
        cases hw : walk tbl pastEnd anc fuel t with
        | none => rw [hw] at hb; simp at hb
        | some w =>
          rw [hw] at hb
          cases w with
          | undefined => simp at hb
          | stopped t2 it =>
            simp only at hb
            cases hd : deref pastEnd anc it with
            | none => rw [hd] at hb; simp at hb
            | some v2 =>
              rw [hd] at hb
              simp only at hb
              by_cases hv2 : t2 = v2
              · rw [if_pos hv2] at hb; simp at hb
              · rw [if_neg hv2] at hb
                have := Option.some.inj hb
                injection this with e2
                exact e2.symm
      | next anc2 =>
        simp only at h ⊢
        obtain ⟨hne2, _⟩ := forBody_next_suffix tbl pastEnd fuel anc anc2 t
          (fun l s hl k => hpe l s hl t (List.mem_cons_self _ _) k) hb
        exact ih anc2 r hne2
          (fun l s hl x hx k => hpe l s hl x (List.mem_cons_of_mem _ hx) k) h

/-- C22. For every table and every list of at least two identifiers, under the
strict reading of past-the-end reads or any reading whose values equal no
identifier on the parent chains of the listed identifiers: after the passes of
the loop for any initial part of the identifiers after the first, the ancestor
list is a non-empty suffix of the trace of the first identifier; and a value that
`GetLCA_ID` returns is the -1 of line 45 or the front of the non-empty ancestor
list left by all passes, an element of the trace of the first identifier. -/
theorem GetLCA_ID_frontier (tbl : TreeHashTable) (pastEnd : List Int → Option Int)
    (fuel : Nat) (first second : Int) (rest path : List Int)
    (hpe : ∀ l s, pastEnd l = some s →
      ∀ x ∈ second :: rest, ∀ k, (TraceParent tbl)^[k] x ≠ s)
    (ht : TraceToRoot tbl fuel first = some path) :
    (∀ done todo F, second :: rest = done ++ todo →
      frontierAfter tbl pastEnd fuel path done = some F → F ≠ [] ∧ F <:+ path) ∧
    (∀ r, GetLCA_ID tbl pastEnd fuel (first :: second :: rest) = some (Outcome.value r) →
      r = -1 ∨ ∃ F, frontierAfter tbl pastEnd fuel path (second :: rest) = some F ∧
        F ≠ [] ∧ F.head? = some r ∧ r ∈ path) := by
  obtain ⟨q, rfl⟩ := TraceToRoot_head tbl fuel first path ht
  refine ⟨?_, ?_⟩
  · intro done todo F hsplit hF
    refine frontierAfter_suffix tbl pastEnd fuel done _ F (List.cons_ne_nil _ _) ?_ hF
    intro l s hl x hx k
    exact hpe l s hl x (hsplit ▸ List.mem_append_left todo hx) k
  · intro r h
    rw [GetLCA_ID, ht] at h
    simp only at h
    rcases foldTaxa_value_front tbl pastEnd fuel (second :: rest) _ r
        (List.cons_ne_nil _ _) hpe h with h1 | ⟨F, hF, hhead⟩
    · exact Or.inl h1
    · right
      obtain ⟨hne, hsuf⟩ := frontierAfter_suffix tbl pastEnd fuel (second :: rest) _ F
        (List.cons_ne_nil _ _) hpe hF
      refine ⟨F, hF, hne, hhead, ?_⟩
      match F, hhead with
      | a :: q2, hhead =>
        have e : a = r := by simpa using hhead
        rw [← e]
        exact hsuf.subset (List.mem_cons_self _ _)

/-- C22 at the list [100, 101] of the example tree, the past-the-end reads
yielding 0: the pass for 101 leaves the ancestors [10], a suffix of [100, 10]. -/
theorem GetLCA_ID_frontier_witness :
    TraceToRoot specTree 2 100 = some [100, 10] ∧
    frontierAfter specTree (sentinel 0) 2 [100, 10] [101] = some [10] ∧
    ([(10 : Int)] ≠ [] ∧ [(10 : Int)] <:+ [100, 10]) :=
  ⟨by decide, by decide,
   (GetLCA_ID_frontier specTree (sentinel 0) 2 100 101 [] [100, 10]
      (fun _ s hs x hx k => by
        have e : s = 0 := by
          simp only [sentinel] at hs
          exact (Option.some.inj hs).symm
        rw [e]
        exact specTree_chain_ne_zero x (List.mem_cons_of_mem _ hx) k)
      (by decide)).1 [101] [] [10] rfl (by decide)⟩

/-! Numeric fields that are not decimal integers -/

theorem digitsValue_stop (acc : Nat) (rest : List Char)
    (h : ∀ c, rest.head? = some c → isdigit c = false) : digitsValue acc rest = acc := by
  cases rest with
  | nil => rfl
  | cons c cs =>
    have hc := h c rfl
    simp [digitsValue, hc]

theorem digitsValue_append :
    ∀ (ds : List Char), (∀ c ∈ ds, isdigit c = true) → ∀ (rest : List Char),
      (∀ c, rest.head? = some c → isdigit c = false) → ∀ acc,
      digitsValue acc (ds ++ rest) = ds.foldl (fun a c => a * 10 + (c.toNat - 48)) acc := by
  intro ds
  induction ds with
  | nil =>
    intro _ rest hrest acc
    simp only [List.nil_append, List.foldl_nil]
    exact digitsValue_stop acc rest hrest
  | cons c cs ih =>
    intro h rest hrest acc
    have hc := h c (List.mem_cons_self _ _)
    simp only [List.cons_append, digitsValue, hc, if_true, List.foldl_cons]
    exact ih (fun c2 h2 => h c2 (List.mem_cons_of_mem _ h2)) rest hrest _

/-- A text that does not begin with white space, a sign or a digit converts
to 0. -/
theorem atoi_no_number (s : List Char)
    (hs : ∀ c, s.head? = some c →
      isspace c = false ∧ c ≠ '-' ∧ c ≠ '+' ∧ isdigit c = false) :
    atoi s = some 0 := by
  cases s with
  | nil => rfl
  | cons c cs =>
    obtain ⟨h1, h2, h3, h4⟩ := hs c rfl
    have hdrop : List.dropWhile isspace (c :: cs) = c :: cs := by
      simp [List.dropWhile, h1]
    have hv : digitsValue 0 (c :: cs) = 0 := by simp [digitsValue, h4]
    simp only [atoi, hdrop, List.head?_cons, Option.some.injEq, h2, h3, if_false, hv]
    rfl

/-- A decimal number followed by text that does not begin with a digit
converts to that number. -/
theorem atoi_leading_number (ds rest : List Char) (hds : isDecimal ds)
    (hrest : ∀ c, rest.head? = some c → isdigit c = false) :
    atoi (ds ++ rest) = some (decimalValue ds : Int) := by
  obtain ⟨hne, hdig, hle⟩ := hds
  match ds, hne, hdig, hle with
  | c :: cs, _, hdig, hle =>
    obtain ⟨h1, h2, h3⟩ := isdigit_facts c (hdig c (List.mem_cons_self _ _))
    have hv : digitsValue 0 ((c :: cs) ++ rest) = decimalValue (c :: cs) :=
      digitsValue_append (c :: cs) hdig rest hrest 0
    have hdrop : List.dropWhile isspace ((c :: cs) ++ rest) = (c :: cs) ++ rest := by
      simp [List.dropWhile, h1]
    have hhead : ((c :: cs) ++ rest).head? = some c := rfl
    simp only [atoi, hdrop, hhead, Option.some.injEq, h2, h3, if_false, hv]
    rw [if_pos]
    constructor
    · omega
    · exact_mod_cast hle

/-- The constructor on a record that `LoadData` can build: the taxon id and the
parent id of the node are what `atoi` makes of the first two fields. -/
theorem TaxonNode_loadable (r : List (List Char)) (h : loadableRecord r) :
    ∃ node, TaxonNode.TaxonNode r = some node ∧
      atoi (r.getD 0 []) = some node.taxonID ∧ atoi (r.getD 1 []) = some node.parentID ∧
      (r[0]? >>= atoi) = some node.taxonID := by
  obtain ⟨hlen, _, hnum⟩ := h
  obtain ⟨v0, e0⟩ := Option.isSome_iff_exists.mp (hnum 0 (by simp))
  obtain ⟨v1, e1⟩ := Option.isSome_iff_exists.mp (hnum 1 (by simp))
  obtain ⟨v4, e4⟩ := Option.isSome_iff_exists.mp (hnum 4 (by simp))
  obtain ⟨v5, e5⟩ := Option.isSome_iff_exists.mp (hnum 5 (by simp))
  obtain ⟨v6, e6⟩ := Option.isSome_iff_exists.mp (hnum 6 (by simp))
  obtain ⟨v7, e7⟩ := Option.isSome_iff_exists.mp (hnum 7 (by simp))
  obtain ⟨v8, e8⟩ := Option.isSome_iff_exists.mp (hnum 8 (by simp))
  obtain ⟨v9, e9⟩ := Option.isSome_iff_exists.mp (hnum 9 (by simp))
  obtain ⟨v10, e10⟩ := Option.isSome_iff_exists.mp (hnum 10 (by simp))
  obtain ⟨v11, e11⟩ := Option.isSome_iff_exists.mp (hnum 11 (by simp))
  have hlt : ¬ (r.length < 13) := by omega
  refine ⟨TaxonNode.mk v0 v1 (c_str (r.getD 2 [])) (c_str (r.getD 3 [])) v4 (decide (v5 ≠ 0))
    v6 (decide (v7 ≠ 0)) v8 (decide (v9 ≠ 0)) (decide (v10 ≠ 0)) (decide (v11 ≠ 0))
    (c_str (r.getD 12 [])), ?_, e0, e1, ?_⟩
  · simp only [TaxonNode.TaxonNode, hlt, if_false, e0, e1, e4, e5, e6, e7, e8, e9, e10, e11,
      Option.some_bind]
  · match r, hlen, e0 with
    | f0 :: rest, _, e0 =>
      simp only [List.getD_cons_zero] at e0
      simp only [List.getElem?_cons_zero, Option.some_bind, Option.bind_eq_bind, e0]

/-- The outer loop of `LoadData` returns on the text of records that it can
build. -/
theorem loadRows_loadable :
    ∀ (rows : List (List (List Char))), (∀ r ∈ rows, loadableRecord r) →
      ∀ (pre : List Char) (tbl : TreeHashTable) (fuel : Nat), rows.length + 1 ≤ fuel →
        ∃ tbl2, loadRows (pre ++ renderDump rows) fuel pre.length tbl =
          some (LoadEnd.returned tbl2) := by
  intro rows
  induction rows with
  | nil =>
    intro _ pre tbl fuel hfuel
    obtain ⟨n, rfl⟩ : ∃ n, fuel = n + 1 := ⟨fuel - 1, by omega⟩
    refine ⟨tbl, ?_⟩
    simp only [renderDump, loadRows]
    rw [strFind_append]
    have : findFrom rowDelim [] = none := rfl
    rw [this]
    rfl
  | cons r rs ih =>
    intro hld pre tbl fuel hfuel
    obtain ⟨n, rfl⟩ : ∃ n, fuel = n + 1 := ⟨fuel - 1, by omega⟩
    have hr := hld r (List.mem_cons_self _ _)
    have hrs : ∀ r2 ∈ rs, loadableRecord r2 := fun r2 h2 => hld r2 (List.mem_cons_of_mem _ h2)
    have hne : r ≠ [] := by
      intro e
      have := hr.1
      rw [e] at this
      simp at this
    obtain ⟨node, hnode, _, _, hkey⟩ := TaxonNode_loadable r hr
    have hfind := findFrom_rowDelim_record r hne hr.2.1 (renderDump rs)
    have hsplit := splitFields_renderFields r hne (fun f hf => (hr.2.1 f hf).1) [] []
      ((renderFields r).length + 1) (length_le_renderFields r)
    simp only [List.nil_append, List.length_nil] at hsplit
    have e2 : pre ++ (renderFields r ++ (rowDelim ++ renderDump rs)) =
        (pre ++ (renderFields r ++ rowDelim)) ++ renderDump rs := by
      simp [List.append_assoc]
    have e3 : (renderFields r).length + pre.length + rowDelim.length =
        (pre ++ (renderFields r ++ rowDelim)).length := by
      simp only [List.length_append]
      omega
    obtain ⟨tbl2, hload⟩ :=
      ih hrs (pre ++ (renderFields r ++ rowDelim)) (insert tbl node.taxonID node) n
        (by simp at hfuel ⊢; omega)
    refine ⟨tbl2, ?_⟩
    have hsub : substr (pre ++ (renderFields r ++ (rowDelim ++ renderDump rs))) pre.length
        ((renderFields r).length + pre.length - pre.length) = renderFields r := by
      simp [substr]
    simp only [renderDump, loadRows]
    rw [strFind_append, hfind]
    simp only [Option.map_some']
    rw [hsub, hsplit]
    simp only [hkey, hnode]
    rw [e2, e3]
    exact hload

/-- C21, counterexample. The text "12abc" is not a well-formed decimal integer,
and `atoi` makes 12 of it, not 0: the node built from a record with that parent
id text has the parentID 12, and from a record with that taxon id text the
taxonID 12. The texts "abc" and "" do give 0. -/
theorem TaxonNode_leading_digits :
    atoi "12abc".toList = some 12 ∧
    (TaxonNode.TaxonNode (recordFields "5".toList "12abc".toList)).map TaxonNode.parentID =
      some 12 ∧
    (TaxonNode.TaxonNode (recordFields "12abc".toList "1".toList)).map TaxonNode.taxonID =
      some 12 ∧
    atoi "abc".toList = some 0 ∧ atoi [] = some 0 := by
  refine ⟨by decide, by decide, by decide, by decide, by decide⟩

/-- C21, amended. Numeric fields are stored as `atoi` converts them: a text s
that does not begin with white space, a sign or a digit (such as "abc" or the
empty text) gives 0, and a decimal number ds followed by text that does not begin
with a digit (such as "12abc") gives the number. For every dump of records with
13 fields, free of tab and newline, whose numeric fields convert to values that
fit an `int`, `LoadData` returns, and the taxonID and the parentID of the node
built from a record are the conversions of its first two fields. -/
theorem LoadData_atoi_fields (fs : FileSystem) (nodesDumpFile : List Char)
    (rows : List (List (List Char))) (tbl : TreeHashTable) (s ds rest : List Char)
    (hfs : fs nodesDumpFile = some (renderDump rows))
    (hrows : ∀ r ∈ rows, loadableRecord r)
    (hs : ∀ c, s.head? = some c →
      isspace c = false ∧ c ≠ '-' ∧ c ≠ '+' ∧ isdigit c = false)
    (hds : isDecimal ds)
    (hrest : ∀ c, rest.head? = some c → isdigit c = false) :
    atoi s = some 0 ∧ atoi (ds ++ rest) = some (decimalValue ds : Int) ∧
    (∃ tbl2, LoadData fs nodesDumpFile tbl = some (LoadEnd.returned tbl2)) ∧
    (∀ r ∈ rows, ∃ node, TaxonNode.TaxonNode r = some node ∧
      atoi (r.getD 0 []) = some node.taxonID ∧ atoi (r.getD 1 []) = some node.parentID) := by
  refine ⟨atoi_no_number s hs, atoi_leading_number ds rest hds hrest, ?_, ?_⟩
  · obtain ⟨tbl2, hload⟩ := loadRows_loadable rows hrows [] tbl
      ((renderDump rows).length + 1) (by have := length_le_renderDump rows; omega)
    simp only [List.nil_append, List.length_nil] at hload
    refine ⟨tbl2, ?_⟩
    simp only [LoadData, ReadFile, hfs]
    exact hload
  · intro r hr
    obtain ⟨node, h1, h2, h3, _⟩ := TaxonNode_loadable r (hrows r hr)
    exact ⟨node, h1, h2, h3⟩

/-- C21, amended, at the dump of one record with the taxon id text "12abc" and
the parent id text "abc", and at the texts "abc" and "12" followed by "abc". -/
theorem LoadData_atoi_fields_witness :
    (∀ r ∈ [recordFields "12abc".toList "abc".toList], loadableRecord r) ∧
    isDecimal "12".toList ∧
    atoi "abc".toList = some 0 ∧ atoi ("12".toList ++ "abc".toList) = some 12 ∧
    (∃ tbl2, LoadData
        (oneFile "nodes.dmp".toList (renderDump [recordFields "12abc".toList "abc".toList]))
        "nodes.dmp".toList [] = some (LoadEnd.returned tbl2)) := by
  have hrows : ∀ r ∈ [recordFields "12abc".toList "abc".toList], loadableRecord r := by decide
  have hds : isDecimal "12".toList := by
    unfold isDecimal
    decide
  obtain ⟨h1, h2, h3, _⟩ := LoadData_atoi_fields
    (oneFile "nodes.dmp".toList (renderDump [recordFields "12abc".toList "abc".toList]))
    "nodes.dmp".toList [recordFields "12abc".toList "abc".toList] []
    "abc".toList "12".toList "abc".toList (by simp [oneFile]) hrows
    (by intro c hc; have e : c = 'a' := by simpa using hc.symm
        subst e; decide)
    hds
    (by intro c hc; have e : c = 'a' := by simpa using hc.symm
        subst e; decide)
  exact ⟨hrows, hds, h1, h2, h3⟩

end Taxonomy
